import Mathlib

/-!
Verification of the AgentScript language-tooling core (busbar-sf-agentscript).

This file gives a shallow embedding, in Lean 4, of the parts of the Rust
source that the specification's quantified claims talk about:

* the dependency extractor's action-target classifier
  (`crates/graph/src/dependencies.rs`, `parse_action_target`);
* the two-stage lexer (`crates/parser/src/lexer.rs`): stage-1 scanning and
  the indentation normalizer `add_indentation_tokens`;
* the expression grammar (`src/parser/expressions.rs`, `expr`) together
  with the `BinOp` precedence table from `src/ast.rs`;
* the variable-declaration grammar (`src/parser/variables.rs`,
  `variable_decl`) with its `= None` semantic check;
* the dynamic-instruction DSL (`crates/parser/src/parser/instructions.rs`):
  `parse_instruction_parts_with_depth`, `parse_if_block`, `skip_if_block`,
  `build_interpolation_expr`, `build_condition_expr`;
* the reference graph's validation queries
  (`crates/graph/src/validation.rs`): `find_cycles`,
  `find_unreachable_topics`, `find_reachable_from`, `validate`.

Rust machine types are embedded as follows: `usize` as `Nat`, a byte span
`start..end` as a pair of `Nat`, string slices as `List Char` (all
concrete inputs used in witnesses are ASCII, so char positions and byte
positions agree), `f64` number literals by the raw digit slice they were
scanned from, `Vec`/slices as `List`, `HashSet`/`HashMap` as association
lists that are kept duplicate-free where the code relies on it.
-/

set_option maxHeartbeats 1000000

namespace AgentScript

/-- A source span: start and one-past-the-end positions
(`Span = SimpleSpan<usize>` / `Range<usize>` in the source). -/
structure Sp where
  start : Nat
  stop : Nat
  deriving Repr, DecidableEq

deriving instance DecidableEq for Except

/-! ## Dependency classifier (`crates/graph/src/dependencies.rs`) -/

/-- `DependencyType` from `crates/graph/src/dependencies.rs`. -/
inductive DependencyType where
  | sObject (name : List Char)
  | field (object : List Char) (fieldName : List Char)
  | flow (name : List Char)
  | apexClass (name : List Char)
  | apexMethod (cls : List Char) (method : List Char)
  | knowledgeBase (name : List Char)
  | connection (name : List Char)
  | promptTemplate (name : List Char)
  | externalService (name : List Char)
  | custom (name : List Char)
  deriving Repr, DecidableEq

/-- `str::strip_prefix`: `some rest` when the string starts with the
prefix, `none` otherwise. -/
def stripPrefixCh : List Char → List Char → Option (List Char)
  | [], s => some s
  | _ :: _, [] => none
  | p :: ps, c :: cs => if c = p then stripPrefixCh ps cs else none

/-- `str::split_once(ch)`: split at the first occurrence of `ch`. -/
def splitOnce (ch : Char) : List Char → Option (List Char × List Char)
  | [] => none
  | c :: cs =>
    if c = ch then some ([], cs)
    else match splitOnce ch cs with
      | some (l, r) => some (c :: l, r)
      | none => none

/-- The record-operation URI schemes tried by `parse_action_target`,
in source order. -/
def recordOps : List (List Char) :=
  ["create://".toList, "read://".toList, "update://".toList,
   "delete://".toList, "query://".toList]

/-- The loop over record-operation schemes in `parse_action_target`. -/
def classifyRecordOps (target : List Char) : List (List Char) → Option DependencyType
  | [] => none
  | op :: ops =>
    match stripPrefixCh op target with
    | some rest =>
      match splitOnce '.' rest with
      | some (object, fieldName) => some (.field object fieldName)
      | none => some (.sObject rest)
    | none => classifyRecordOps target ops

/-- `parse_action_target` from `crates/graph/src/dependencies.rs`:
classify an action target string by its URI scheme. -/
def parseActionTarget (target : List Char) : DependencyType :=
  match stripPrefixCh "flow://".toList target with
  | some name => .flow name
  | none =>
  match stripPrefixCh "apex://".toList target with
  | some name =>
    (match splitOnce '.' name with
     | some (cls, method) => .apexMethod cls method
     | none => .apexClass name)
  | none =>
  match stripPrefixCh "prompt://".toList target with
  | some name => .promptTemplate name
  | none =>
  match stripPrefixCh "service://".toList target with
  | some name => .externalService name
  | none =>
  match classifyRecordOps target recordOps with
  | some dep => dep
  | none => .custom target

lemma stripPrefixCh_append (p s : List Char) :
    stripPrefixCh p (p ++ s) = some s := by
  induction p with
  | nil => rfl
  | cons c cs ih => simp [stripPrefixCh, ih]

lemma stripPrefixCh_eq_some_iff (p s : List Char) :
    (∃ r, stripPrefixCh p s = some r) ↔ p.IsPrefix s := by
  induction p generalizing s with
  | nil =>
    simp only [stripPrefixCh]
    exact ⟨fun _ => List.nil_prefix, fun _ => ⟨s, rfl⟩⟩
  | cons c cs ih =>
    cases s with
    | nil =>
      simp only [stripPrefixCh]
      constructor
      · rintro ⟨r, hr⟩; cases hr
      · intro h
        exact absurd (List.IsPrefix.length_le h) (by simp)
    | cons d ds =>
      by_cases hdc : d = c
      · subst hdc
        refine Iff.trans ?_ (Iff.trans (ih ds) ?_)
        · simp [stripPrefixCh]
        · exact ⟨fun h => List.cons_prefix_cons.mpr ⟨rfl, h⟩,
            fun h => (List.cons_prefix_cons.mp h).2⟩
      · simp only [stripPrefixCh, if_neg hdc]
        constructor
        · rintro ⟨r, hr⟩; cases hr
        · intro h
          exact absurd (List.cons_prefix_cons.mp h).1 (Ne.symm hdc)

lemma splitOnce_not_mem (ch : Char) (s : List Char) (h : ch ∉ s) :
    splitOnce ch s = none := by
  induction s with
  | nil => rfl
  | cons c cs ih =>
    simp only [List.mem_cons, not_or] at h
    simp [splitOnce, Ne.symm h.1, ih h.2]

lemma splitOnce_append (ch : Char) (l r : List Char) (h : ch ∉ l) :
    splitOnce ch (l ++ ch :: r) = some (l, r) := by
  induction l with
  | nil => simp [splitOnce]
  | cons c cs ih =>
    simp only [List.mem_cons, not_or] at h
    simp [splitOnce, Ne.symm h.1, ih h.2]

/-- The set of scheme prefixes checked by `parse_action_target`. -/
def allSchemes : List (List Char) :=
  ["flow://".toList, "apex://".toList, "prompt://".toList,
   "service://".toList] ++ recordOps

lemma classifyRecordOps_none (target : List Char) (ops : List (List Char))
    (h : ∀ op ∈ ops, ¬ op.IsPrefix target) :
    classifyRecordOps target ops = none := by
  induction ops with
  | nil => rfl
  | cons op ops ih =>
    have hop : stripPrefixCh op target = none := by
      cases hs : stripPrefixCh op target with
      | none => rfl
      | some r =>
        exact absurd ((stripPrefixCh_eq_some_iff op target).mp ⟨r, hs⟩)
          (h op (by simp))
    simp only [classifyRecordOps, hop]
    exact ih (fun o ho => h o (by simp [ho]))

lemma parseActionTarget_main_schemes :
    (∀ s : List Char, parseActionTarget ("flow://".toList ++ s) = .flow s) ∧
    (∀ c m : List Char, '.' ∉ c →
      parseActionTarget ("apex://".toList ++ c ++ '.' :: m) = .apexMethod c m) ∧
    (∀ c : List Char, '.' ∉ c →
      parseActionTarget ("apex://".toList ++ c) = .apexClass c) ∧
    (∀ s : List Char, parseActionTarget ("prompt://".toList ++ s) = .promptTemplate s) ∧
    (∀ s : List Char, parseActionTarget ("service://".toList ++ s) = .externalService s) := by
  refine ⟨?_, ?_, ?_, ?_, ?_⟩
  · intro s
    simp [parseActionTarget, stripPrefixCh]
  · intro c m hc
    simp [parseActionTarget, stripPrefixCh, splitOnce_append _ _ _ hc]
  · intro c hc
    simp [parseActionTarget, stripPrefixCh, splitOnce_not_mem _ _ hc]
  · intro s
    simp [parseActionTarget, stripPrefixCh]
  · intro s
    simp [parseActionTarget, stripPrefixCh]

lemma parseActionTarget_record_ops :
    (∀ op ∈ recordOps, ∀ o f : List Char, '.' ∉ o →
      parseActionTarget (op ++ o ++ '.' :: f) = .field o f) ∧
    (∀ op ∈ recordOps, ∀ o : List Char, '.' ∉ o →
      parseActionTarget (op ++ o) = .sObject o) := by
  constructor
  · intro op hop o f ho
    have := splitOnce_append '.' o f ho
    fin_cases hop <;>
      simp [parseActionTarget, classifyRecordOps, recordOps, stripPrefixCh, this]
  · intro op hop o ho
    have := splitOnce_not_mem '.' o ho
    fin_cases hop <;>
      simp [parseActionTarget, classifyRecordOps, recordOps, stripPrefixCh, this]

lemma parseActionTarget_custom (s : List Char)
    (h : ∀ p ∈ allSchemes, ¬ p.IsPrefix s) :
    parseActionTarget s = .custom s := by
  have strip : ∀ p ∈ allSchemes, stripPrefixCh p s = none := by
    intro p hp
    cases hs : stripPrefixCh p s with
    | none => rfl
    | some r =>
      exact absurd ((stripPrefixCh_eq_some_iff p s).mp ⟨r, hs⟩) (h p hp)
  have hrec : classifyRecordOps s recordOps = none :=
    classifyRecordOps_none s recordOps
      (fun op hop => h op (by simp [allSchemes, hop]))
  simp only [parseActionTarget,
    strip "flow://".toList (by simp [allSchemes]),
    strip "apex://".toList (by simp [allSchemes]),
    strip "prompt://".toList (by simp [allSchemes]),
    strip "service://".toList (by simp [allSchemes]), hrec]

/-- C5: `parse_action_target` is a total function on strings whose result
is determined by the URI scheme prefix alone: `flow://NAME` gives
`Flow(NAME)`, `apex://CLASS.METHOD` gives `ApexMethod`, `apex://CLASS`
(no dot) gives `ApexClass`, `prompt://NAME` gives `PromptTemplate`,
`service://NAME` gives `ExternalService`, each record-operation scheme
(`create read update delete query`) gives `Field` for `OBJECT.FIELD` and
`SObject` without the field, and any string starting with none of the
schemes is classified `Custom` of itself.  (Totality is inherent:
`parseActionTarget` is a total Lean function on `List Char`.) -/
theorem parse_action_target_scheme_classification :
    (∀ s : List Char, parseActionTarget ("flow://".toList ++ s) = .flow s) ∧
    (∀ c m : List Char, '.' ∉ c →
      parseActionTarget ("apex://".toList ++ c ++ '.' :: m) = .apexMethod c m) ∧
    (∀ c : List Char, '.' ∉ c →
      parseActionTarget ("apex://".toList ++ c) = .apexClass c) ∧
    (∀ s : List Char, parseActionTarget ("prompt://".toList ++ s) = .promptTemplate s) ∧
    (∀ s : List Char, parseActionTarget ("service://".toList ++ s) = .externalService s) ∧
    (∀ op ∈ recordOps, ∀ o f : List Char, '.' ∉ o →
      parseActionTarget (op ++ o ++ '.' :: f) = .field o f) ∧
    (∀ op ∈ recordOps, ∀ o : List Char, '.' ∉ o →
      parseActionTarget (op ++ o) = .sObject o) ∧
    (∀ s : List Char, (∀ p ∈ allSchemes, ¬ p.IsPrefix s) →
      parseActionTarget s = .custom s) :=
  ⟨parseActionTarget_main_schemes.1, parseActionTarget_main_schemes.2.1,
   parseActionTarget_main_schemes.2.2.1, parseActionTarget_main_schemes.2.2.2.1,
   parseActionTarget_main_schemes.2.2.2.2, parseActionTarget_record_ops.1,
   parseActionTarget_record_ops.2, parseActionTarget_custom⟩

/-- Witness for C5 at concrete inputs: `apex://C.m`, `read://Contact.Email`
and the non-scheme string `other://X` (spec scenario S6). -/
theorem parse_action_target_scheme_classification_witness :
    ('.' ∉ "C".toList ∧
      parseActionTarget ("apex://".toList ++ "C".toList ++ '.' :: "m".toList)
        = .apexMethod "C".toList "m".toList) ∧
    ("read://".toList ∈ recordOps ∧ '.' ∉ "Contact".toList ∧
      parseActionTarget ("read://".toList ++ "Contact".toList ++ '.' :: "Email".toList)
        = .field "Contact".toList "Email".toList) ∧
    ((∀ p ∈ allSchemes, ¬ p.IsPrefix "other://X".toList) ∧
      parseActionTarget "other://X".toList = .custom "other://X".toList) := by
  refine ⟨⟨by decide, ?_⟩, ⟨by decide, by decide, ?_⟩, ⟨by decide, ?_⟩⟩
  · exact parse_action_target_scheme_classification.2.1 "C".toList "m".toList (by decide)
  · exact parse_action_target_scheme_classification.2.2.2.2.2.1 "read://".toList
      (by decide) "Contact".toList "Email".toList (by decide)
  · exact parse_action_target_scheme_classification.2.2.2.2.2.2.2 "other://X".toList
      (by decide)

/-! ## Tokens (`crates/parser/src/lexer.rs`, `enum Token`) -/

/-- The payload-free tokens of the lexer (keywords, type names, literal
keywords, operators and punctuation), in source declaration order.
They are grouped into their own enumeration only so that equality
derivation stays tractable; `Tok` below wraps them. -/
inductive Kw where
  | config | variables | system | startAgent | topic | actions | inputs
  | outputs | target | reasoning | instructions | beforeReasoning
  | afterReasoning | messages | welcome | errorKw | connection | connections
  | knowledge | language
  | mutable | linked | description | source | label
  | isRequired | isDisplayable | isUsedByPlanner | complexDataTypeName
  | filterFromAgent
  | requireUserConfirmation | includeInProgressIndicator
  | progressIndicatorMessage
  | stringTy | numberTy | booleanTy | objectTy | listTy | dateTy
  | timestampTy | currencyTy | idTy | datetimeTy | timeTy | integerTy
  | longTy
  | ifKw | elseKw | runKw | withKw | setKw | toKw | asKw | transition
  | available | whenKw
  | trueLit | falseLit | noneLit
  | eq | ne | lt | gt | le | ge | assign | isKw | notKw | andKw | orKw
  | plus | minus
  | colon | dot | comma | atSign | pipe | arrow | colonPipe | colonArrow
  | lparen | rparen | lbracket | rbracket | lbrace | rbrace | exclBrace
  | doubleLBrace | doubleBrace | ellipsis
  | slash | question | exclamation | dollar | percent | star | ampersand
  | semicolon | backtick | tilde | caret | backslash | underscore
  | apostrophe
  deriving Repr, DecidableEq

/-- The token type of the lexer (`enum Token`).  Payload-carrying
variants keep the scanned text; `numberLit` keeps the raw digit slice the
`f64` was parsed from (the numeric value itself is never needed by the
claims below). -/
inductive Tok where
  | kw (k : Kw)
  | unicodeText (s : String)
  | ident (s : String)
  | stringLit (s : String)
  | numberLit (raw : String)
  | comment (s : String)
  | newline
  | indent
  | dedent
  deriving Repr, DecidableEq

@[match_pattern] def Tok.config : Tok := .kw .config
@[match_pattern] def Tok.variables : Tok := .kw .variables
@[match_pattern] def Tok.system : Tok := .kw .system
@[match_pattern] def Tok.startAgent : Tok := .kw .startAgent
@[match_pattern] def Tok.topic : Tok := .kw .topic
@[match_pattern] def Tok.actions : Tok := .kw .actions
@[match_pattern] def Tok.inputs : Tok := .kw .inputs
@[match_pattern] def Tok.outputs : Tok := .kw .outputs
@[match_pattern] def Tok.target : Tok := .kw .target
@[match_pattern] def Tok.reasoning : Tok := .kw .reasoning
@[match_pattern] def Tok.instructions : Tok := .kw .instructions
@[match_pattern] def Tok.beforeReasoning : Tok := .kw .beforeReasoning
@[match_pattern] def Tok.afterReasoning : Tok := .kw .afterReasoning
@[match_pattern] def Tok.messages : Tok := .kw .messages
@[match_pattern] def Tok.welcome : Tok := .kw .welcome
@[match_pattern] def Tok.errorKw : Tok := .kw .errorKw
@[match_pattern] def Tok.connection : Tok := .kw .connection
@[match_pattern] def Tok.connections : Tok := .kw .connections
@[match_pattern] def Tok.knowledge : Tok := .kw .knowledge
@[match_pattern] def Tok.language : Tok := .kw .language
@[match_pattern] def Tok.mutable : Tok := .kw .mutable
@[match_pattern] def Tok.linked : Tok := .kw .linked
@[match_pattern] def Tok.description : Tok := .kw .description
@[match_pattern] def Tok.source : Tok := .kw .source
@[match_pattern] def Tok.label : Tok := .kw .label
@[match_pattern] def Tok.isRequired : Tok := .kw .isRequired
@[match_pattern] def Tok.isDisplayable : Tok := .kw .isDisplayable
@[match_pattern] def Tok.isUsedByPlanner : Tok := .kw .isUsedByPlanner
@[match_pattern] def Tok.complexDataTypeName : Tok := .kw .complexDataTypeName
@[match_pattern] def Tok.filterFromAgent : Tok := .kw .filterFromAgent
@[match_pattern] def Tok.requireUserConfirmation : Tok := .kw .requireUserConfirmation
@[match_pattern] def Tok.includeInProgressIndicator : Tok := .kw .includeInProgressIndicator
@[match_pattern] def Tok.progressIndicatorMessage : Tok := .kw .progressIndicatorMessage
@[match_pattern] def Tok.stringTy : Tok := .kw .stringTy
@[match_pattern] def Tok.numberTy : Tok := .kw .numberTy
@[match_pattern] def Tok.booleanTy : Tok := .kw .booleanTy
@[match_pattern] def Tok.objectTy : Tok := .kw .objectTy
@[match_pattern] def Tok.listTy : Tok := .kw .listTy
@[match_pattern] def Tok.dateTy : Tok := .kw .dateTy
@[match_pattern] def Tok.timestampTy : Tok := .kw .timestampTy
@[match_pattern] def Tok.currencyTy : Tok := .kw .currencyTy
@[match_pattern] def Tok.idTy : Tok := .kw .idTy
@[match_pattern] def Tok.datetimeTy : Tok := .kw .datetimeTy
@[match_pattern] def Tok.timeTy : Tok := .kw .timeTy
@[match_pattern] def Tok.integerTy : Tok := .kw .integerTy
@[match_pattern] def Tok.longTy : Tok := .kw .longTy
@[match_pattern] def Tok.ifKw : Tok := .kw .ifKw
@[match_pattern] def Tok.elseKw : Tok := .kw .elseKw
@[match_pattern] def Tok.runKw : Tok := .kw .runKw
@[match_pattern] def Tok.withKw : Tok := .kw .withKw
@[match_pattern] def Tok.setKw : Tok := .kw .setKw
@[match_pattern] def Tok.toKw : Tok := .kw .toKw
@[match_pattern] def Tok.asKw : Tok := .kw .asKw
@[match_pattern] def Tok.transition : Tok := .kw .transition
@[match_pattern] def Tok.available : Tok := .kw .available
@[match_pattern] def Tok.whenKw : Tok := .kw .whenKw
@[match_pattern] def Tok.trueLit : Tok := .kw .trueLit
@[match_pattern] def Tok.falseLit : Tok := .kw .falseLit
@[match_pattern] def Tok.noneLit : Tok := .kw .noneLit
@[match_pattern] def Tok.eq : Tok := .kw .eq
@[match_pattern] def Tok.ne : Tok := .kw .ne
@[match_pattern] def Tok.lt : Tok := .kw .lt
@[match_pattern] def Tok.gt : Tok := .kw .gt
@[match_pattern] def Tok.le : Tok := .kw .le
@[match_pattern] def Tok.ge : Tok := .kw .ge
@[match_pattern] def Tok.assign : Tok := .kw .assign
@[match_pattern] def Tok.isKw : Tok := .kw .isKw
@[match_pattern] def Tok.notKw : Tok := .kw .notKw
@[match_pattern] def Tok.andKw : Tok := .kw .andKw
@[match_pattern] def Tok.orKw : Tok := .kw .orKw
@[match_pattern] def Tok.plus : Tok := .kw .plus
@[match_pattern] def Tok.minus : Tok := .kw .minus
@[match_pattern] def Tok.colon : Tok := .kw .colon
@[match_pattern] def Tok.dot : Tok := .kw .dot
@[match_pattern] def Tok.comma : Tok := .kw .comma
@[match_pattern] def Tok.atSign : Tok := .kw .atSign
@[match_pattern] def Tok.pipe : Tok := .kw .pipe
@[match_pattern] def Tok.arrow : Tok := .kw .arrow
@[match_pattern] def Tok.colonPipe : Tok := .kw .colonPipe
@[match_pattern] def Tok.colonArrow : Tok := .kw .colonArrow
@[match_pattern] def Tok.lparen : Tok := .kw .lparen
@[match_pattern] def Tok.rparen : Tok := .kw .rparen
@[match_pattern] def Tok.lbracket : Tok := .kw .lbracket
@[match_pattern] def Tok.rbracket : Tok := .kw .rbracket
@[match_pattern] def Tok.lbrace : Tok := .kw .lbrace
@[match_pattern] def Tok.rbrace : Tok := .kw .rbrace
@[match_pattern] def Tok.exclBrace : Tok := .kw .exclBrace
@[match_pattern] def Tok.doubleLBrace : Tok := .kw .doubleLBrace
@[match_pattern] def Tok.doubleBrace : Tok := .kw .doubleBrace
@[match_pattern] def Tok.ellipsis : Tok := .kw .ellipsis
@[match_pattern] def Tok.slash : Tok := .kw .slash
@[match_pattern] def Tok.question : Tok := .kw .question
@[match_pattern] def Tok.exclamation : Tok := .kw .exclamation
@[match_pattern] def Tok.dollar : Tok := .kw .dollar
@[match_pattern] def Tok.percent : Tok := .kw .percent
@[match_pattern] def Tok.star : Tok := .kw .star
@[match_pattern] def Tok.ampersand : Tok := .kw .ampersand
@[match_pattern] def Tok.semicolon : Tok := .kw .semicolon
@[match_pattern] def Tok.backtick : Tok := .kw .backtick
@[match_pattern] def Tok.tilde : Tok := .kw .tilde
@[match_pattern] def Tok.caret : Tok := .kw .caret
@[match_pattern] def Tok.backslash : Tok := .kw .backslash
@[match_pattern] def Tok.underscore : Tok := .kw .underscore
@[match_pattern] def Tok.apostrophe : Tok := .kw .apostrophe

/-- A spanned token, `(Token, Span)` in the source. -/
abbrev STok := Tok × Sp

/-! ## Stage-1 lexer (`lexer()` in `crates/parser/src/lexer.rs`)

The chumsky parser is an ordered choice of token alternatives, greedy on
repetition, with horizontal whitespace skipped around every token.  Each
alternative below is a function `List Char → Option (Tok × Nat)` giving
the token and the number of characters consumed. -/

/-- Horizontal whitespace skipped between tokens (`one_of(" \t")`). -/
def isHWs (c : Char) : Bool := c = ' ' || c = '\t'

/-- `comment`: `#` up to (not including) the next newline. -/
def lexComment : List Char → Option (Tok × Nat)
  | [] => none
  | c :: rest =>
    if c = '#' then
      let body := rest.takeWhile (fun d => d ≠ '\n')
      some (.comment body.asString, 1 + body.length)
    else none

/-- `string_lit`: `"` then any characters other than `"` then `"`.
Note `none_of('"')` also accepts newline characters. -/
def lexStringTok : List Char → Option (Tok × Nat)
  | [] => none
  | c :: rest =>
    if c = '"' then
      let mid := rest.takeWhile (fun d => d ≠ '"')
      match rest.drop mid.length with
      | '"' :: _ => some (.stringLit mid.asString, mid.length + 2)
      | _ => none
    else none

/-- `number`: `text::int(10)` (no leading zero unless the integer is `0`)
then optionally `.` and one or more digits. -/
def lexNumber : List Char → Option (Tok × Nat)
  | [] => none
  | c :: rest =>
    if c.isDigit then
      let intPart := if c = '0' then ['0'] else c :: rest.takeWhile Char.isDigit
      let after := (c :: rest).drop intPart.length
      let whole :=
        match after with
        | '.' :: r2 =>
          let ds := r2.takeWhile Char.isDigit
          if ds.isEmpty then intPart else intPart ++ '.' :: ds
        | _ => intPart
      some (.numberLit whole.asString, whole.length)
    else none

/-- `multi_char_ops`, in source order. -/
def multiCharOps : List (List Char × Tok) :=
  [(":->".toList, .colonArrow), (":|".toList, .colonPipe),
   ("->".toList, .arrow), ("...".toList, .ellipsis),
   ("==".toList, .eq), ("!=".toList, .ne), ("<=".toList, .le),
   (">=".toList, .ge), ("\x7b!".toList, .exclBrace),
   ("\x7b\x7b".toList, .doubleLBrace), ("\x7d\x7d".toList, .doubleBrace)]

/-- Try a list of literal (multi-character) operators in order. -/
def lexOps (ops : List (List Char × Tok)) (cs : List Char) : Option (Tok × Nat) :=
  match ops with
  | [] => none
  | (p, t) :: rest =>
    match stripPrefixCh p cs with
    | some _ => some (t, p.length)
    | none => lexOps rest cs

/-- `single_char_ops`, in source order. -/
def singleCharOps : List (Char × Tok) :=
  [('<', .lt), ('>', .gt), ('=', .assign), ('+', .plus), ('-', .minus),
   (':', .colon), ('.', .dot), (',', .comma), ('@', .atSign), ('|', .pipe),
   ('(', .lparen), (')', .rparen), ('[', .lbracket), (']', .rbracket),
   ('\x7b', .lbrace), ('\x7d', .rbrace)]

/-- `text_punctuation`, in source order. -/
def textPunctuation : List (Char × Tok) :=
  [('/', .slash), ('?', .question), ('!', .exclamation), ('$', .dollar),
   ('%', .percent), ('*', .star), ('&', .ampersand), (';', .semicolon),
   ('`', .backtick), ('~', .tilde), ('^', .caret), ('\\', .backslash),
   ('_', .underscore), ('\'', .apostrophe)]

/-- Try a list of single-character tokens in order. -/
def lexChars (ops : List (Char × Tok)) : List Char → Option (Tok × Nat)
  | [] => none
  | c :: _ =>
    match ops.find? (fun p => p.1 = c) with
    | some (_, t) => some (t, 1)
    | none => none

def charIsAscii (c : Char) : Bool := c.toNat < 128

/-- `unicode_text`: a maximal nonempty run of non-ASCII characters. -/
def lexUnicode : List Char → Option (Tok × Nat)
  | [] => none
  | c :: rest =>
    if charIsAscii c then none
    else
      let run := c :: rest.takeWhile (fun d => ¬ charIsAscii d)
      some (.unicodeText run.asString, run.length)

def isIdentStart (c : Char) : Bool := c.isAlpha || c = '_'

def isIdentCont (c : Char) : Bool := c.isAlphanum || c = '_'

/-- All `text::keyword(...)` entries of the lexer, as keyword text paired
with its token.  `text::keyword` matches a whole identifier exactly, so
scanning the maximal identifier and looking it up in this table is
equivalent to the ordered keyword choice of the source. -/
def keywordTable : List (String × Tok) :=
  [("config", .config), ("variables", .variables), ("system", .system),
   ("start_agent", .startAgent), ("topic", .topic), ("actions", .actions),
   ("inputs", .inputs), ("outputs", .outputs), ("target", .target),
   ("reasoning", .reasoning), ("instructions", .instructions),
   ("before_reasoning", .beforeReasoning),
   ("after_reasoning", .afterReasoning), ("messages", .messages),
   ("welcome", .welcome), ("error", .errorKw), ("connection", .connection),
   ("connections", .connections), ("knowledge", .knowledge),
   ("language", .language), ("mutable", .mutable), ("linked", .linked),
   ("description", .description), ("source", .source), ("label", .label),
   ("is_required", .isRequired), ("is_displayable", .isDisplayable),
   ("is_used_by_planner", .isUsedByPlanner),
   ("complex_data_type_name", .complexDataTypeName),
   ("filter_from_agent", .filterFromAgent),
   ("require_user_confirmation", .requireUserConfirmation),
   ("include_in_progress_indicator", .includeInProgressIndicator),
   ("progress_indicator_message", .progressIndicatorMessage),
   ("string", .stringTy), ("number", .numberTy), ("boolean", .booleanTy),
   ("object", .objectTy), ("list", .listTy), ("date", .dateTy),
   ("timestamp", .timestampTy), ("currency", .currencyTy),
   ("datetime", .datetimeTy), ("time", .timeTy), ("integer", .integerTy),
   ("long", .longTy), ("id", .idTy),
   ("if", .ifKw), ("else", .elseKw), ("run", .runKw), ("with", .withKw),
   ("set", .setKw), ("to", .toKw), ("as", .asKw),
   ("transition", .transition), ("available", .available),
   ("when", .whenKw),
   ("True", .trueLit), ("False", .falseLit), ("None", .noneLit),
   ("is", .isKw), ("not", .notKw), ("and", .andKw), ("or", .orKw)]

/-- `keyword` / `ident`: scan a maximal identifier, emit the keyword token
when the table matches it exactly, `Ident` otherwise. -/
def lexWord : List Char → Option (Tok × Nat)
  | [] => none
  | c :: rest =>
    if isIdentStart c then
      let w := c :: rest.takeWhile isIdentCont
      let s := w.asString
      match keywordTable.find? (fun p => p.1 = s) with
      | some (_, t) => some (t, w.length)
      | none => some (.ident s, w.length)
    else none

/-- `newline`. -/
def lexNewline : List Char → Option (Tok × Nat)
  | [] => none
  | c :: _ => if c = '\n' then some (.newline, 1) else none

/-- The ordered token choice of `lexer()`: comment, string, number,
multi-char operators, single-char operators, text punctuation, unicode
text, keyword/identifier, newline. -/
def tryTok (cs : List Char) : Option (Tok × Nat) :=
  (lexComment cs).orElse fun _ =>
  (lexStringTok cs).orElse fun _ =>
  (lexNumber cs).orElse fun _ =>
  (lexOps multiCharOps cs).orElse fun _ =>
  (lexChars singleCharOps cs).orElse fun _ =>
  (lexChars textPunctuation cs).orElse fun _ =>
  (lexUnicode cs).orElse fun _ =>
  (lexWord cs).orElse fun _ =>
  lexNewline cs

/-- The token loop of `lexer()`: skip horizontal whitespace, scan one
token, repeat; fail (like the chumsky parse with its implicit
end-of-input) at the first position where no token alternative applies.
The error value is the failing position.

`fuel` is an embedding artifact bounding the recursion; every token
consumes at least one character, so `fuel = cs.length + 1` (as used by
`lexAgent`) never reaches the `0` case. -/
def lexLoop : Nat → List Char → Nat → Except Nat (List STok)
  | 0, _, pos => .error pos
  | Nat.succ fuel, cs, pos =>
    let ws := cs.takeWhile isHWs
    let cs1 := cs.drop ws.length
    let pos1 := pos + ws.length
    match cs1 with
    | [] => .ok []
    | _ =>
      match tryTok cs1 with
      | some (t, k) =>
        (lexLoop fuel (cs1.drop k) (pos1 + k)).map
          (fun rest => (t, ⟨pos1, pos1 + k⟩) :: rest)
      | none => .error pos1

/-- Stage 1 of the lexer: `lexer().parse(source)`. -/
def lexAgent (src : List Char) : Except Nat (List STok) :=
  lexLoop (src.length + 1) src 0

/-! ## Indentation normalizer (`add_indentation_tokens`)

CR characters are modelled as ordinary characters (the claims and all
witness inputs are `\n`-separated ASCII). -/

/-- `source.lines()`: split at `\n` terminators; the empty trailing line
after a final `\n` is not produced. -/
def linesOf : List Char → List (List Char)
  | [] => []
  | c :: cs =>
    if c = '\n' then [] :: linesOf cs
    else
      match linesOf cs with
      | [] => [[c]]
      | l :: ls => (c :: l) :: ls

/-- The `(line start position, leading-whitespace count)` scan over
`source.lines()` building `line_indents`. -/
def lineIndentsFrom (pos : Nat) : List (List Char) → List (Nat × Nat)
  | [] => []
  | l :: ls =>
    (pos, (l.takeWhile Char.isWhitespace).length)
      :: lineIndentsFrom (pos + l.length + 1) ls

def lineIndents (src : List Char) : List (Nat × Nat) :=
  lineIndentsFrom 0 (linesOf src)

/-- `get_indent_at`: walk `line_indents` in reverse, return the indent of
the first line whose start is `≤ pos`, default 0. -/
def getIndentAt (li : List (Nat × Nat)) (pos : Nat) : Nat :=
  match li.reverse.find? (fun p => p.1 ≤ pos) with
  | some p => p.2
  | none => 0

/-- The end-of-input loop of `add_indentation_tokens`: pop every stack
entry above the initial `0`, emitting one `Dedent` (at the EOF position)
per pop. -/
def flushDedents (eofPos : Nat) : List Nat → List STok
  | _ :: y :: rest => (Tok.dedent, ⟨eofPos, eofPos⟩) :: flushDedents eofPos (y :: rest)
  | _ => []

/-- The dedent loop: pop while the stack has more than one level and the
top is greater than the new indent, emitting one `Dedent` per pop; stops
at the nearest lesser-or-equal level (lenient, not an error). -/
def popDedents (posn : Nat) (newIndent : Nat) : List Nat → List STok × List Nat
  | x :: y :: rest =>
    if newIndent < x then
      ((Tok.dedent, ⟨posn, posn⟩) :: (popDedents posn newIndent (y :: rest)).1,
        (popDedents posn newIndent (y :: rest)).2)
    else ([], x :: y :: rest)
  | s => ([], s)

/-- The main loop of `add_indentation_tokens`.  `afterNl = false` is the
plain copying state; `afterNl = true` is the lookahead state entered after
emitting a `Newline`, which copies further `Newline`/`Comment` tokens and,
at the next non-trivial token, compares that token's line indentation with
the stack top and emits `Indent`/`Dedent` markers. -/
def aiAux (li : List (Nat × Nat)) (eofPos : Nat) :
    Bool → List STok → List Nat → List STok
  | _, [], stack => flushDedents eofPos stack
  | false, (t, sp) :: rest, stack =>
    match t with
    | .newline => (t, sp) :: aiAux li eofPos true rest stack
    | _ => (t, sp) :: aiAux li eofPos false rest stack
  | true, (t, sp) :: rest, stack =>
    match t with
    | .comment s => (.comment s, sp) :: aiAux li eofPos true rest stack
    | .newline => (Tok.newline, sp) :: aiAux li eofPos true rest stack
    | _ =>
      let newIndent := getIndentAt li sp.start
      let cur := stack.headD 0
      if cur < newIndent then
        (Tok.indent, ⟨sp.start, sp.start⟩) :: (t, sp)
          :: aiAux li eofPos false rest (newIndent :: stack)
      else if newIndent < cur then
        let (ds, stack1) := popDedents sp.start newIndent stack
        ds ++ (t, sp) :: aiAux li eofPos false rest stack1
      else
        (t, sp) :: aiAux li eofPos false rest stack

/-- `add_indentation_tokens(source, tokens)`. -/
def addIndentationTokens (src : List Char) (toks : List STok) : List STok :=
  aiAux (lineIndents src) src.length false toks [0]

/-- `lex_with_indentation(source)`. -/
def lexWithIndentation (src : List Char) : Except Nat (List STok) :=
  (lexAgent src).map (addIndentationTokens src)

/-- Number of occurrences of a given token in a spanned-token list. -/
def countTok (t : Tok) (l : List STok) : Nat :=
  l.countP (fun p => p.1 = t)

lemma countTok_cons (t : Tok) (p : STok) (l : List STok) :
    countTok t (p :: l) = countTok t l + (if p.1 = t then 1 else 0) := by
  simp only [countTok, List.countP_cons]
  split <;> simp_all

lemma countTok_append (t : Tok) (l r : List STok) :
    countTok t (l ++ r) = countTok t l + countTok t r := by
  simp [countTok, List.countP_append]

lemma flushDedents_dedent (e : Nat) (stack : List Nat) :
    countTok .dedent (flushDedents e stack) = stack.length - 1 := by
  induction stack with
  | nil => simp [flushDedents, countTok]
  | cons x rest ih =>
    cases rest with
    | nil => simp [flushDedents, countTok]
    | cons y r =>
      simp only [flushDedents, countTok_cons]
      rw [ih]
      simp

lemma flushDedents_indent (e : Nat) (stack : List Nat) :
    countTok .indent (flushDedents e stack) = 0 := by
  induction stack with
  | nil => simp [flushDedents, countTok]
  | cons x rest ih =>
    cases rest with
    | nil => simp [flushDedents, countTok]
    | cons y r =>
      simp only [flushDedents, countTok_cons]
      rw [ih]
      simp [Tok.dedent, Tok.indent]

lemma popDedents_spec (p n : Nat) (stack : List Nat) :
    countTok .dedent (popDedents p n stack).1
        = stack.length - (popDedents p n stack).2.length ∧
    countTok .indent (popDedents p n stack).1 = 0 ∧
    (popDedents p n stack).2.length ≤ stack.length ∧
    (1 ≤ stack.length → 1 ≤ (popDedents p n stack).2.length) := by
  induction stack with
  | nil => simp [popDedents, countTok]
  | cons x rest ih =>
    cases rest with
    | nil => simp [popDedents, countTok]
    | cons y r =>
      by_cases h : n < x
      · simp only [popDedents, if_pos h]
        obtain ⟨h1, h2, h3, h4⟩ := ih
        have h4a : 1 ≤ (popDedents p n (y :: r)).2.length := h4 (by simp)
        refine ⟨?_, ?_, ?_, ?_⟩
        · rw [countTok_cons, h1]
          simp only [List.length_cons] at h3 ⊢
          simp
          omega
        · rw [countTok_cons, h2]
          simp [Tok.dedent, Tok.indent]
        · simp only [List.length_cons] at h3 ⊢
          omega
        · intro _
          exact h4a
      · simp [popDedents, if_neg h, countTok]

/-- A token list free of the synthetic markers, as produced by stage 1. -/
def noMarkers (toks : List STok) : Prop :=
  ∀ p ∈ toks, p.1 ≠ Tok.indent ∧ p.1 ≠ Tok.dedent

/-- Invariant for the main loop of the indentation normalizer: on a
marker-free input, the number of `Indent` tokens emitted plus the current
stack depth equals the number of `Dedent` tokens emitted plus one. -/
lemma aiAux_balanced (li : List (Nat × Nat)) (e : Nat) :
    ∀ (toks : List STok) (m : Bool) (stack : List Nat), noMarkers toks →
      1 ≤ stack.length →
      countTok .indent (aiAux li e m toks stack) + stack.length
        = countTok .dedent (aiAux li e m toks stack) + 1 := by
  intro toks
  induction toks with
  | nil =>
    intro m stack _ hs
    cases m <;>
      simp [aiAux, flushDedents_dedent, flushDedents_indent] <;> omega
  | cons q rest ih =>
    obtain ⟨t, sp⟩ := q
    intro m stack hnm hs
    have hnmr : noMarkers rest := fun p hp => hnm p (List.mem_cons_of_mem _ hp)
    have htm := hnm (t, sp) (List.mem_cons_self _ _)
    cases m with
    | false =>
      cases t <;>
        · simp only [aiAux, countTok_cons]
          have := ih false stack hnmr hs
          simp_all [Tok.dedent, Tok.indent]
    | true =>
      cases t with
      | comment s =>
        simp only [aiAux, countTok_cons]
        have := ih true stack hnmr hs
        simp_all [Tok.dedent, Tok.indent]
      | newline =>
        simp only [aiAux, countTok_cons]
        have := ih true stack hnmr hs
        simp_all [Tok.dedent, Tok.indent]
      | _ =>
        simp only [aiAux]
        first
        | (exact absurd rfl htm.1)
        | (exact absurd rfl htm.2)
        | (split
           · have hrec := ih false (getIndentAt li sp.start :: stack) hnmr (by simp)
             simp only [List.length_cons] at hrec
             simp only [countTok_cons]
             simp
             omega
           · split
             · obtain ⟨h1, h2, h3, h4⟩ :=
                 popDedents_spec sp.start (getIndentAt li sp.start) stack
               have h4a := h4 hs
               have hrec := ih false
                 (popDedents sp.start (getIndentAt li sp.start) stack).2 hnmr h4a
               simp only [countTok_append, countTok_cons]
               simp
               omega
             · have hrec := ih false stack hnmr hs
               simp only [countTok_cons]
               simp
               omega)

lemma lexComment_shape (cs : List Char) (t : Tok) (k : Nat)
    (h : lexComment cs = some (t, k)) : ∃ s, t = .comment s := by
  cases cs with
  | nil => cases h
  | cons c rest =>
    simp only [lexComment] at h
    split at h
    · exact ⟨_, (Prod.mk.injEq _ _ _ _ ▸ Option.some.inj h).1.symm⟩
    · cases h

lemma lexStringTok_shape (cs : List Char) (t : Tok) (k : Nat)
    (h : lexStringTok cs = some (t, k)) : ∃ s, t = .stringLit s := by
  cases cs with
  | nil => cases h
  | cons c rest =>
    simp only [lexStringTok] at h
    split at h
    · split at h
      · exact ⟨_, (Prod.mk.injEq _ _ _ _ ▸ Option.some.inj h).1.symm⟩
      · cases h
    · cases h

lemma lexNumber_shape (cs : List Char) (t : Tok) (k : Nat)
    (h : lexNumber cs = some (t, k)) : ∃ s, t = .numberLit s := by
  cases cs with
  | nil => cases h
  | cons c rest =>
    simp only [lexNumber] at h
    split at h
    · exact ⟨_, (Prod.mk.injEq _ _ _ _ ▸ Option.some.inj h).1.symm⟩
    · cases h

lemma lexOps_shape (ops : List (List Char × Tok)) (cs : List Char)
    (t : Tok) (k : Nat) (h : lexOps ops cs = some (t, k)) :
    ∃ p, (p, t) ∈ ops := by
  induction ops with
  | nil => cases h
  | cons q rest ih =>
    obtain ⟨p, t0⟩ := q
    simp only [lexOps] at h
    split at h
    · obtain ⟨rfl, -⟩ := Prod.mk.injEq _ _ _ _ ▸ Option.some.inj h
      exact ⟨p, List.mem_cons_self _ _⟩
    · obtain ⟨p, hp⟩ := ih h
      exact ⟨p, List.mem_cons_of_mem _ hp⟩

lemma lexChars_shape (ops : List (Char × Tok)) (cs : List Char)
    (t : Tok) (k : Nat) (h : lexChars ops cs = some (t, k)) :
    ∃ p, (p, t) ∈ ops := by
  cases cs with
  | nil => cases h
  | cons c rest =>
    simp only [lexChars] at h
    cases hf : ops.find? (fun p => p.1 = c) with
    | none => rw [hf] at h; cases h
    | some q =>
      rw [hf] at h
      obtain ⟨p0, t0⟩ := q
      obtain ⟨rfl, -⟩ := Prod.mk.injEq _ _ _ _ ▸ Option.some.inj h
      exact ⟨p0, List.mem_of_find?_eq_some hf⟩

lemma lexUnicode_shape (cs : List Char) (t : Tok) (k : Nat)
    (h : lexUnicode cs = some (t, k)) : ∃ s, t = .unicodeText s := by
  cases cs with
  | nil => cases h
  | cons c rest =>
    simp only [lexUnicode] at h
    split at h
    · cases h
    · exact ⟨_, (Prod.mk.injEq _ _ _ _ ▸ Option.some.inj h).1.symm⟩

lemma lexWord_shape (cs : List Char) (t : Tok) (k : Nat)
    (h : lexWord cs = some (t, k)) :
    (∃ s, (s, t) ∈ keywordTable) ∨ ∃ s, t = .ident s := by
  cases cs with
  | nil => cases h
  | cons c rest =>
    simp only [lexWord] at h
    split at h
    · cases hf : keywordTable.find?
          (fun p => p.1 = (c :: rest.takeWhile isIdentCont).asString) with
      | none =>
        rw [hf] at h
        exact Or.inr ⟨_, (Prod.mk.injEq _ _ _ _ ▸ Option.some.inj h).1.symm⟩
      | some q =>
        rw [hf] at h
        obtain ⟨s0, t0⟩ := q
        obtain ⟨rfl, -⟩ := Prod.mk.injEq _ _ _ _ ▸ Option.some.inj h
        exact Or.inl ⟨s0, List.mem_of_find?_eq_some hf⟩
    · cases h

lemma lexNewline_shape (cs : List Char) (t : Tok) (k : Nat)
    (h : lexNewline cs = some (t, k)) : t = .newline := by
  cases cs with
  | nil => cases h
  | cons c rest =>
    simp only [lexNewline] at h
    split at h
    · exact (Prod.mk.injEq _ _ _ _ ▸ Option.some.inj h).1.symm
    · cases h

/-- Stage-1 token alternatives never produce the synthetic markers. -/
lemma tryTok_no_marker (cs : List Char) (t : Tok) (k : Nat)
    (h : tryTok cs = some (t, k)) : t ≠ Tok.indent ∧ t ≠ Tok.dedent := by
  unfold tryTok at h
  cases h1 : lexComment cs with
  | some v =>
    rw [h1] at h; simp only [Option.orElse] at h
    have hv : v = (t, k) := Option.some.inj h
    obtain ⟨s, rfl⟩ := lexComment_shape cs t k (by rw [h1, hv])
    exact ⟨by simp, by simp⟩
  | none =>
  rw [h1] at h; simp only [Option.orElse] at h
  cases h2 : lexStringTok cs with
  | some v =>
    rw [h2] at h; simp only [Option.orElse] at h
    obtain ⟨s, rfl⟩ := lexStringTok_shape cs t k (by rw [h2, ← h])
    exact ⟨by simp, by simp⟩
  | none =>
  rw [h2] at h; simp only [Option.orElse] at h
  cases h3 : lexNumber cs with
  | some v =>
    rw [h3] at h; simp only [Option.orElse] at h
    obtain ⟨s, rfl⟩ := lexNumber_shape cs t k (by rw [h3, ← h])
    exact ⟨by simp, by simp⟩
  | none =>
  rw [h3] at h; simp only [Option.orElse] at h
  cases h4 : lexOps multiCharOps cs with
  | some v =>
    rw [h4] at h; simp only [Option.orElse] at h
    obtain ⟨p, hp⟩ := lexOps_shape multiCharOps cs t k (by rw [h4, ← h])
    have : ∀ q ∈ multiCharOps, q.2 ≠ Tok.indent ∧ q.2 ≠ Tok.dedent := by decide
    exact this (p, t) hp
  | none =>
  rw [h4] at h; simp only [Option.orElse] at h
  cases h5 : lexChars singleCharOps cs with
  | some v =>
    rw [h5] at h; simp only [Option.orElse] at h
    obtain ⟨p, hp⟩ := lexChars_shape singleCharOps cs t k (by rw [h5, ← h])
    have : ∀ q ∈ singleCharOps, q.2 ≠ Tok.indent ∧ q.2 ≠ Tok.dedent := by decide
    exact this (p, t) hp
  | none =>
  rw [h5] at h; simp only [Option.orElse] at h
  cases h6 : lexChars textPunctuation cs with
  | some v =>
    rw [h6] at h; simp only [Option.orElse] at h
    obtain ⟨p, hp⟩ := lexChars_shape textPunctuation cs t k (by rw [h6, ← h])
    have : ∀ q ∈ textPunctuation, q.2 ≠ Tok.indent ∧ q.2 ≠ Tok.dedent := by decide
    exact this (p, t) hp
  | none =>
  rw [h6] at h; simp only [Option.orElse] at h
  cases h7 : lexUnicode cs with
  | some v =>
    rw [h7] at h; simp only [Option.orElse] at h
    obtain ⟨s, rfl⟩ := lexUnicode_shape cs t k (by rw [h7, ← h])
    exact ⟨by simp, by simp⟩
  | none =>
  rw [h7] at h; simp only [Option.orElse] at h
  cases h8 : lexWord cs with
  | some v =>
    rw [h8] at h; simp only [Option.orElse] at h
    rcases lexWord_shape cs t k (by rw [h8, ← h]) with ⟨s, hs⟩ | ⟨s, rfl⟩
    · have : ∀ q ∈ keywordTable, q.2 ≠ Tok.indent ∧ q.2 ≠ Tok.dedent := by decide
      exact this (s, t) hs
    · exact ⟨by simp, by simp⟩
  | none =>
  rw [h8] at h; simp only [Option.orElse] at h
  have := lexNewline_shape cs t k h
  subst this
  exact ⟨by simp, by simp⟩

/-- Everything stage 1 emits is marker-free. -/
lemma lexLoop_noMarkers (fuel : Nat) :
    ∀ (cs : List Char) (pos : Nat) (toks : List STok),
      lexLoop fuel cs pos = .ok toks → noMarkers toks := by
  induction fuel with
  | zero => intro cs pos toks h; cases h
  | succ n ih =>
    intro cs pos toks h
    rw [lexLoop] at h
    split at h
    · cases h
      intro p hp
      cases hp
    · split at h
      · rename_i t k heq
        cases hr : lexLoop n ((cs.drop (cs.takeWhile isHWs).length).drop k)
            (pos + (cs.takeWhile isHWs).length + k) with
        | error e => rw [hr] at h; cases h
        | ok rest =>
          rw [hr] at h
          simp only [Except.map] at h
          cases h
          intro p hp
          cases hp with
          | head => exact tryTok_no_marker _ _ _ heq
          | tail _ hp2 => exact ih _ _ _ hr p hp2
      · cases h

/-- C2: for every source string, a successful run of the indentation
normalizer (`lex_with_indentation` = stage-1 lexing followed by
`add_indentation_tokens`) returns a token list with exactly as many
`Indent` tokens as `Dedent` tokens. -/
theorem lex_with_indentation_indent_dedent_balanced
    (src : List Char) (toks : List STok)
    (h : lexWithIndentation src = .ok toks) :
    countTok .indent toks = countTok .dedent toks := by
  unfold lexWithIndentation at h
  cases hl : lexAgent src with
  | error e => rw [hl] at h; cases h
  | ok ts =>
    rw [hl] at h
    simp only [Except.map] at h
    cases h
    have hnm : noMarkers ts := lexLoop_noMarkers _ _ _ _ hl
    have := aiAux_balanced (lineIndents src) src.length ts false [0] hnm (by simp)
    simpa [addIndentationTokens] using this

/-- Witness for C2 on the concrete two-line source `"a\nCARET b"` (one
indented line, so one `Indent` is emitted and its `Dedent` arrives at
EOF). -/
theorem lex_with_indentation_indent_dedent_balanced_witness :
    lexWithIndentation "a\n b".toList
        = .ok [(Tok.ident "a", ⟨0, 1⟩), (Tok.newline, ⟨1, 2⟩),
               (Tok.indent, ⟨3, 3⟩), (Tok.ident "b", ⟨3, 4⟩),
               (Tok.dedent, ⟨4, 4⟩)] ∧
    countTok .indent [(Tok.ident "a", ⟨0, 1⟩), (Tok.newline, ⟨1, 2⟩),
               (Tok.indent, ⟨3, 3⟩), (Tok.ident "b", ⟨3, 4⟩),
               (Tok.dedent, ⟨4, 4⟩)]
      = countTok .dedent [(Tok.ident "a", ⟨0, 1⟩), (Tok.newline, ⟨1, 2⟩),
               (Tok.indent, ⟨3, 3⟩), (Tok.ident "b", ⟨3, 4⟩),
               (Tok.dedent, ⟨4, 4⟩)] := by
  constructor
  · decide
  · exact lex_with_indentation_indent_dedent_balanced "a\n b".toList _ (by decide)

/-! ## C8: newlines inside double-quoted string literals -/

lemma takeWhile_append_all (p : Char → Bool) (l r : List Char)
    (h : ∀ c ∈ l, p c = true) :
    (l ++ r).takeWhile p = l ++ r.takeWhile p := by
  induction l with
  | nil => simp
  | cons c cs ih =>
    simp only [List.cons_append, List.takeWhile_cons, h c (by simp), if_true]
    rw [ih (fun d hd => h d (by simp [hd]))]

/-- C8 counterexample: on the concrete source `"a\nb"` (a double quote,
`a`, a newline, `b`, a closing double quote) the lexer succeeds and
produces a `StringLit` whose content spans the newline — it does not
report a failure. -/
theorem string_newline_counterexample :
    lexWithIndentation "\"a\nb\"".toList
      = .ok [(Tok.stringLit "a\nb", ⟨0, 5⟩)] ∧ '\n' ∈ "a\nb".toList := by
  constructor
  · decide
  · decide

/-- C8 amended: the lexing layer permits newlines inside double-quoted
string literals.  For every inner text `mid` that contains a newline (and
no double quote), lexing `"mid"` succeeds with exactly one `StringLit`
token carrying `mid` verbatim; a failure is reported only for an
unterminated string, not for a newline. -/
theorem string_newline_accepted (mid : List Char)
    (hq : '"' ∉ mid) (hn : '\n' ∈ mid) :
    lexWithIndentation ('"' :: mid ++ ['"'])
      = .ok [(Tok.stringLit mid.asString, ⟨0, mid.length + 2⟩)] := by
  have hmid : (mid ++ ['"']).takeWhile (fun d => !decide (d = '"')) = mid := by
    rw [takeWhile_append_all _ _ _ (fun c hc => by
      simp only [Bool.not_eq_true', decide_eq_false_iff_not]
      exact fun hEq => hq (hEq ▸ hc))]
    simp
  have h1 : tryTok ('"' :: (mid ++ ['"']))
      = some (.stringLit mid.asString, mid.length + 2) := by
    simp [tryTok, lexComment, lexStringTok, hmid, Option.orElse, List.drop_left]
  have hdrop : (('"' :: (mid ++ ['"'])).drop (mid.length + 2)) = [] := by
    apply List.drop_eq_nil_of_le
    simp
  have h2 : lexAgent ('"' :: (mid ++ ['"']))
      = .ok [(Tok.stringLit mid.asString, ⟨0, mid.length + 2⟩)] := by
    unfold lexAgent
    have hlen : ('"' :: (mid ++ ['"'])).length = mid.length + 2 := by simp
    rw [hlen]
    rw [show mid.length + 2 + 1 = Nat.succ (mid.length + 2) from rfl, lexLoop]
    have hws : ('"' :: (mid ++ ['"'])).takeWhile isHWs = [] := by
      simp [List.takeWhile_cons, isHWs]
    simp only [hws, List.length_nil, List.drop_zero, Nat.add_zero, Nat.zero_add]
    simp only [h1, hdrop]
    rw [show mid.length + 2 = Nat.succ (mid.length + 1) from rfl, lexLoop]
    simp [Except.map]
  unfold lexWithIndentation
  rw [show ('"' :: mid ++ ['"']) = ('"' :: (mid ++ ['"'])) by simp, h2]
  simp only [Except.map]
  simp [addIndentationTokens, aiAux, flushDedents]

/-- Witness for the amended C8 at the inner text `a\nb`. -/
theorem string_newline_accepted_witness :
    '"' ∉ "a\nb".toList ∧ '\n' ∈ "a\nb".toList ∧
    lexWithIndentation ('"' :: "a\nb".toList ++ ['"'])
      = .ok [(Tok.stringLit "a\nb".toList.asString,
              ⟨0, "a\nb".toList.length + 2⟩)] :=
  ⟨by decide, by decide,
    string_newline_accepted "a\nb".toList (by decide) (by decide)⟩

/-! ## Expression AST (`src/ast.rs`) -/

/-- `BinOp` from `src/ast.rs`. -/
inductive BinOp where
  | eq | ne | lt | gt | le | ge | is | isNot
  | and | or
  | add | sub
  deriving Repr, DecidableEq

/-- `BinOp::precedence` from `src/ast.rs` (higher binds tighter). -/
def BinOp.precedence : BinOp → Nat
  | .or => 1
  | .and => 2
  | .is | .isNot => 3
  | .eq | .ne | .lt | .gt | .le | .ge => 4
  | .add | .sub => 5

/-- `UnaryOp` from `src/ast.rs`. -/
inductive UnaryOp where
  | not | neg
  deriving Repr, DecidableEq

/-- `Reference` from `src/ast.rs` (`namespace` is a reserved word in
Lean, so the field is called `ns`). -/
structure Reference where
  ns : String
  path : List String
  deriving Repr, DecidableEq

/-- `Expr` from `src/ast.rs`, without spans (no claim about the
expression grammar depends on expression sub-spans).  `number` carries
the raw literal slice standing in for the `f64`. -/
inductive Expr where
  | reference (r : Reference)
  | string (s : String)
  | number (raw : String)
  | bool (b : Bool)
  | noneE
  | list (items : List Expr)
  | object (entries : List (String × Expr))
  | binOp (left : Expr) (op : BinOp) (right : Expr)
  | unaryOp (op : UnaryOp) (operand : Expr)
  | ternary (condition : Expr) (thenExpr : Expr) (elseExpr : Expr)
  | property (object : Expr) (fieldName : String)
  | index (object : Expr) (idx : Expr)
  deriving Repr

/-! ## Expression grammar (`expr` in `src/parser/expressions.rs`)

A parser is a function `List Tok → Option (α × List Tok)` returning the
parsed value and the unconsumed tokens.  The chumsky combinators have
PEG semantics: ordered choice, greedy possessive repetition.  Recursion
through parenthesised/list/index sub-expressions is fuelled; `parseExpr`
supplies `length + 1` fuel, which one token of consumption per nesting
level makes sufficient. -/

/-- The namespace token set of `reference()`. -/
def nsSelect : Tok → Option String
  | .ident s => some s
  | .variables => some "variables"
  | .actions => some "actions"
  | .outputs => some "outputs"
  | .topic => some "topic"
  | .inputs => some "inputs"
  | _ => none

/-- The path-segment token set of `reference()`. -/
def refPathSelect : Tok → Option String
  | .ident s => some s
  | .transition => some "transition"
  | .toKw => some "to"
  | _ => none

/-- The repeated `.segment` part of `reference()`. -/
def parseRefPath : List Tok → (List String × List Tok)
  | .dot :: t :: rest =>
    (match refPathSelect t with
     | some s =>
       ((s :: (parseRefPath rest).1), (parseRefPath rest).2)
     | none => ([], .dot :: t :: rest))
  | ts => ([], ts)

/-- `reference()`: `@namespace(.segment)*`. -/
def parseRef : List Tok → Option (Reference × List Tok)
  | .atSign :: t :: rest =>
    (match nsSelect t with
     | some n =>
       some ({ ns := n, path := (parseRefPath rest).1 }, (parseRefPath rest).2)
     | none => none)
  | _ => none

/-- `property_ident()`: the token set accepted as a property name. -/
def propertyIdentSelect : Tok → Option String
  | .ident s => some s
  | .variables => some "variables"
  | .actions => some "actions"
  | .outputs => some "outputs"
  | .topic => some "topic"
  | .description => some "description"
  | .label => some "label"
  | .source => some "source"
  | .target => some "target"
  | .errorKw => some "error"
  | .stringTy => some "string"
  | .numberTy => some "number"
  | .booleanTy => some "boolean"
  | .objectTy => some "object"
  | .listTy => some "list"
  | .idTy => some "id"
  | _ => none

abbrev ExprParser := List Tok → Option (Expr × List Tok)

/-- The element loop of the non-empty list atom:
`expr.separated_by(comma).allow_trailing()`. -/
def listItemsLoop (pe : ExprParser) : Nat → Expr → List Tok → (List Expr × List Tok)
  | 0, acc, ts => ([acc], ts)
  | fuel + 1, acc, ts =>
    match ts with
    | .comma :: rest =>
      (match pe rest with
       | some (e, rest2) =>
         ((acc :: (listItemsLoop pe fuel e rest2).1), (listItemsLoop pe fuel e rest2).2)
       | none => ([acc], rest))
    | _ => ([acc], ts)

/-- `expr.separated_by(comma).allow_trailing().collect()` (zero or more
elements; a trailing separator is consumed). -/
def parseListItems (pe : ExprParser) (ts : List Tok) : (List Expr × List Tok) :=
  match pe ts with
  | some (e, rest) => listItemsLoop pe (rest.length + 1) e rest
  | none => ([], ts)

/-- The `atom` choice of `expr()`: literals, reference, parenthesised
expression, empty list, non-empty list.  (Object literals are not
accepted in source.) -/
def parseAtom (pe : ExprParser) : ExprParser := fun ts =>
  match ts with
  | .stringLit s :: rest => some (.string s, rest)
  | .numberLit raw :: rest => some (.number raw, rest)
  | .trueLit :: rest => some (.bool true, rest)
  | .falseLit :: rest => some (.bool false, rest)
  | .noneLit :: rest => some (.noneE, rest)
  | .atSign :: _ =>
    (match parseRef ts with
     | some (r, rest) => some (.reference r, rest)
     | none => none)
  | .lparen :: rest =>
    (match pe rest with
     | some (e, .rparen :: rest2) => some (e, rest2)
     | _ => none)
  | .lbracket :: .rbracket :: rest => some (.list [], rest)
  | .lbracket :: rest =>
    (match parseListItems pe rest with
     | (items, .rbracket :: rest2) => some (.list items, rest2)
     | _ => none)
  | _ => none

/-- One postfix operator of `expr()`: `.field` (property access) or
`[index]`, returned as the node constructor to fold over the object. -/
def postfixStep (pe : ExprParser) (ts : List Tok) :
    Option ((Expr → Expr) × List Tok) :=
  match ts with
  | .dot :: t :: rest =>
    (match propertyIdentSelect t with
     | some f => some (fun acc => .property acc f, rest)
     | none => none)
  | .lbracket :: rest =>
    (match pe rest with
     | some (idx, .rbracket :: rest2) => some (fun acc => .index acc idx, rest2)
     | _ => none)
  | _ => none

/-- The postfix fold of `expr()`: postfix operators applied left to
right. -/
def postfixLoop (pe : ExprParser) : Nat → Expr → List Tok → (Expr × List Tok)
  | 0, acc, ts => (acc, ts)
  | fuel + 1, acc, ts =>
    match postfixStep pe ts with
    | some (f, rest) => postfixLoop pe fuel (f acc) rest
    | none => (acc, ts)

def parsePostfix (pe : ExprParser) : ExprParser := fun ts =>
  match parseAtom pe ts with
  | some (a, rest) => some (postfixLoop pe (rest.length + 1) a rest)
  | none => none

/-- The unary-prefix fold of `expr()`: `not` and `-`, right
associated. -/
def parseUnaryF (pe : ExprParser) : Nat → ExprParser
  | 0 => fun _ => none
  | fuel + 1 => fun ts =>
    match ts with
    | .notKw :: rest =>
      (match parseUnaryF pe fuel rest with
       | some (e, r) => some (.unaryOp .not e, r)
       | none => none)
    | .minus :: rest =>
      (match parseUnaryF pe fuel rest with
       | some (e, r) => some (.unaryOp .neg e, r)
       | none => none)
    | _ => parsePostfix pe ts

def parseUnary (pe : ExprParser) : ExprParser := fun ts =>
  parseUnaryF pe (ts.length + 1) ts

/-- `comparison_op`: exactly `== != <= >= < >`. -/
def comparisonOpSelect : Tok → Option BinOp
  | .eq => some .eq
  | .ne => some .ne
  | .le => some .le
  | .ge => some .ge
  | .lt => some .lt
  | .gt => some .gt
  | _ => none

/-- `add_op`: `+` and `-`. -/
def addOpSelect : Tok → Option BinOp
  | .plus => some .add
  | .minus => some .sub
  | _ => none

def andOpSelect : Tok → Option BinOp
  | .andKw => some .and
  | _ => none

def orOpSelect : Tok → Option BinOp
  | .orKw => some .or
  | _ => none

/-- One left-associative binary level: `sub (op sub)*` folded into
`BinOp` nodes. -/
def binLoop (opSel : Tok → Option BinOp) (sub : ExprParser) :
    Nat → Expr → List Tok → (Expr × List Tok)
  | 0, acc, ts => (acc, ts)
  | fuel + 1, acc, ts =>
    match ts with
    | t :: rest =>
      (match opSel t with
       | some op =>
         (match sub rest with
          | some (r, rest2) => binLoop opSel sub fuel (.binOp acc op r) rest2
          | none => (acc, t :: rest))
       | none => (acc, t :: rest))
    | [] => (acc, [])

def binLevel (opSel : Tok → Option BinOp) (sub : ExprParser) : ExprParser :=
  fun ts =>
    match sub ts with
    | some (l, rest) => some (binLoop opSel sub (rest.length + 1) l rest)
    | none => none

def parseSum (pe : ExprParser) : ExprParser := binLevel addOpSelect (parseUnary pe)

def parseComparison (pe : ExprParser) : ExprParser :=
  binLevel comparisonOpSelect (parseSum pe)

def parseAndE (pe : ExprParser) : ExprParser := binLevel andOpSelect (parseComparison pe)

def parseOrE (pe : ExprParser) : ExprParser := binLevel orOpSelect (parseAndE pe)

/-- The ternary layer of `expr()`: `then (if cond else other)?`
(Python-style value-first ordering). -/
def exprCore (pe : ExprParser) : ExprParser := fun ts =>
  match parseOrE pe ts with
  | some (thenE, rest) =>
    (match rest with
     | .ifKw :: rest2 =>
       (match parseOrE pe rest2 with
        | some (cond, .elseKw :: rest4) =>
          (match parseOrE pe rest4 with
           | some (elseE, rest5) => some (.ternary cond thenE elseE, rest5)
           | none => some (thenE, rest))
        | _ => some (thenE, rest))
     | _ => some (thenE, rest))
  | none => none

/-- `expr()` with explicit recursion fuel for the nesting through
parentheses, list literals and index brackets. -/
def parseExprF : Nat → ExprParser
  | 0 => fun _ => none
  | fuel + 1 => exprCore (parseExprF fuel)

/-- `expr()`: one token of consumption per nesting level makes
`length + 1` fuel sufficient. -/
def parseExpr : ExprParser := fun ts => parseExprF (ts.length + 1) ts

/-! ## C1: `is` / `is not` and the expression grammar -/

mutual

/-- `true` when the expression contains no `BinOp::Is` / `BinOp::IsNot`
node. -/
def noIs : Expr → Bool
  | .reference _ => true
  | .string _ => true
  | .number _ => true
  | .bool _ => true
  | .noneE => true
  | .list items => noIsList items
  | .object entries => noIsPairs entries
  | .binOp l op r => !(op = .is || op = .isNot) && noIs l && noIs r
  | .unaryOp _ e => noIs e
  | .ternary c t e => noIs c && noIs t && noIs e
  | .property o _ => noIs o
  | .index o i => noIs o && noIs i

def noIsList : List Expr → Bool
  | [] => true
  | e :: es => noIs e && noIsList es

def noIsPairs : List (String × Expr) → Bool
  | [] => true
  | p :: ps => noIs p.2 && noIsPairs ps

end

/-- A parser whose every produced expression is `Is`-free. -/
def ParserNoIs (p : ExprParser) : Prop :=
  ∀ ts e rest, p ts = some (e, rest) → noIs e = true

lemma listItemsLoop_noIs (pe : ExprParser) (hpe : ParserNoIs pe) :
    ∀ (fuel : Nat) (acc : Expr) (ts : List Tok), noIs acc = true →
      noIsList (listItemsLoop pe fuel acc ts).1 = true := by
  intro fuel
  induction fuel with
  | zero => intro acc ts ha; simp [listItemsLoop, noIsList, ha]
  | succ n ih =>
    intro acc ts ha
    cases ts with
    | nil => simp [listItemsLoop, noIsList, ha]
    | cons t rest =>
      cases t <;> (try (simp [listItemsLoop, noIsList, ha]; done)) <;>
      rename_i k <;> (try (cases k <;> (try (simp [listItemsLoop, noIsList, ha]; done))))
      case kw.comma =>
        simp only [listItemsLoop]
        cases hp : pe rest with
        | none => simp [noIsList, ha]
        | some v =>
          obtain ⟨e2, rest2⟩ := v
          simp only [noIsList, Bool.and_eq_true]
          exact ⟨ha, ih e2 rest2 (hpe rest e2 rest2 hp)⟩

lemma parseListItems_noIs (pe : ExprParser) (hpe : ParserNoIs pe) (ts : List Tok) :
    noIsList (parseListItems pe ts).1 = true := by
  unfold parseListItems
  cases hp : pe ts with
  | none => simp [noIsList]
  | some v =>
    obtain ⟨e, rest⟩ := v
    exact listItemsLoop_noIs pe hpe _ e rest (hpe ts e rest hp)

lemma parseAtom_noIs (pe : ExprParser) (hpe : ParserNoIs pe) :
    ParserNoIs (parseAtom pe) := by
  intro ts e rest hp
  unfold parseAtom at hp
  split at hp
  · cases hp; simp [noIs]
  · cases hp; simp [noIs]
  · cases hp; simp [noIs]
  · cases hp; simp [noIs]
  · cases hp; simp [noIs]
  · split at hp
    · cases hp; simp [noIs]
    · cases hp
  · split at hp
    · rename_i e2 rest2 heq
      cases hp
      exact hpe _ _ _ heq
    · cases hp
  · cases hp; simp [noIs, noIsList]
  · rename_i rest0 tl hno2
    split at hp
    · rename_i items rest2 heq2
      cases hp
      have := parseListItems_noIs pe hpe tl
      rw [heq2] at this
      simpa [noIs] using this
    · cases hp
  · cases hp

lemma postfixStep_noIs (pe : ExprParser) (hpe : ParserNoIs pe)
    (ts : List Tok) (f : Expr → Expr) (rest : List Tok)
    (h : postfixStep pe ts = some (f, rest)) :
    ∀ acc, noIs acc = true → noIs (f acc) = true := by
  unfold postfixStep at h
  split at h
  · split at h
    · cases h
      intro acc ha
      simp [noIs, ha]
    · cases h
  · split at h
    · rename_i idx rest2 heq
      cases h
      intro acc ha
      simp [noIs, ha, hpe _ _ _ heq]
    · cases h
  · cases h

lemma postfixLoop_noIs (pe : ExprParser) (hpe : ParserNoIs pe) :
    ∀ (fuel : Nat) (acc : Expr) (ts : List Tok), noIs acc = true →
      noIs (postfixLoop pe fuel acc ts).1 = true := by
  intro fuel
  induction fuel with
  | zero => intro acc ts ha; simpa [postfixLoop] using ha
  | succ n ih =>
    intro acc ts ha
    cases hs : postfixStep pe ts with
    | none => simpa [postfixLoop, hs] using ha
    | some v =>
      obtain ⟨f, rest⟩ := v
      simp only [postfixLoop, hs]
      exact ih _ _ (postfixStep_noIs pe hpe ts f rest hs acc ha)

lemma parsePostfix_noIs (pe : ExprParser) (hpe : ParserNoIs pe) :
    ParserNoIs (parsePostfix pe) := by
  intro ts e rest hp
  unfold parsePostfix at hp
  split at hp
  · rename_i a rest0 heq
    have h2 := Option.some.inj hp
    have h3 := postfixLoop_noIs pe hpe (rest0.length + 1) a rest0
      (parseAtom_noIs pe hpe _ _ _ heq)
    rw [h2] at h3
    exact h3
  · cases hp

lemma parseUnaryF_noIs (pe : ExprParser) (hpe : ParserNoIs pe) :
    ∀ (fuel : Nat), ParserNoIs (parseUnaryF pe fuel) := by
  intro fuel
  induction fuel with
  | zero => intro ts e rest hp; cases hp
  | succ n ih =>
    intro ts e rest hp
    simp only [parseUnaryF] at hp
    split at hp
    · split at hp
      · rename_i e2 r2 heq
        cases hp
        simpa [noIs] using ih _ _ _ heq
      · cases hp
    · split at hp
      · rename_i e2 r2 heq
        cases hp
        simpa [noIs] using ih _ _ _ heq
      · cases hp
    · exact parsePostfix_noIs pe hpe _ _ _ hp

lemma parseUnary_noIs (pe : ExprParser) (hpe : ParserNoIs pe) :
    ParserNoIs (parseUnary pe) := fun ts => parseUnaryF_noIs pe hpe _ ts

/-- Ranges of the four operator selectors of the expression grammar:
none of them ever yields `Is` or `IsNot`. -/
lemma opSelects_no_is :
    ∀ t op, (comparisonOpSelect t = some op ∨ addOpSelect t = some op ∨
        andOpSelect t = some op ∨ orOpSelect t = some op) →
      op ≠ .is ∧ op ≠ .isNot := by
  intro t op h
  rcases h with h | h | h | h <;>
    (cases t with
     | kw k =>
       cases k <;>
         simp_all [comparisonOpSelect, addOpSelect, andOpSelect, orOpSelect] <;>
         (subst h; exact ⟨by decide, by decide⟩)
     | _ => simp_all [comparisonOpSelect, addOpSelect, andOpSelect, orOpSelect])

lemma binLoop_noIs (opSel : Tok → Option BinOp) (sub : ExprParser)
    (hop : ∀ t op, opSel t = some op → op ≠ .is ∧ op ≠ .isNot)
    (hsub : ParserNoIs sub) :
    ∀ (fuel : Nat) (acc : Expr) (ts : List Tok), noIs acc = true →
      noIs (binLoop opSel sub fuel acc ts).1 = true := by
  intro fuel
  induction fuel with
  | zero => intro acc ts ha; simpa [binLoop] using ha
  | succ n ih =>
    intro acc ts ha
    cases ts with
    | nil => simpa [binLoop] using ha
    | cons t rest =>
      cases hsel : opSel t with
      | none => simpa [binLoop, hsel] using ha
      | some op =>
        cases hsub2 : sub rest with
        | none => simpa [binLoop, hsel, hsub2] using ha
        | some v =>
          obtain ⟨r, rest2⟩ := v
          simp only [binLoop, hsel, hsub2]
          refine ih _ _ ?_
          have := hop t op hsel
          simp [noIs, ha, hsub _ _ _ hsub2, this.1, this.2]

lemma binLevel_noIs (opSel : Tok → Option BinOp) (sub : ExprParser)
    (hop : ∀ t op, opSel t = some op → op ≠ .is ∧ op ≠ .isNot)
    (hsub : ParserNoIs sub) : ParserNoIs (binLevel opSel sub) := by
  intro ts e rest hp
  unfold binLevel at hp
  split at hp
  · rename_i l rest0 heq
    have h2 := Option.some.inj hp
    have h3 := binLoop_noIs opSel sub hop hsub (rest0.length + 1) l rest0
      (hsub _ _ _ heq)
    rw [h2] at h3
    exact h3
  · cases hp

lemma parseOrE_noIs (pe : ExprParser) (hpe : ParserNoIs pe) :
    ParserNoIs (parseOrE pe) := by
  apply binLevel_noIs _ _ (fun t op h => opSelects_no_is t op (Or.inr (Or.inr (Or.inr h))))
  apply binLevel_noIs _ _ (fun t op h => opSelects_no_is t op (Or.inr (Or.inr (Or.inl h))))
  apply binLevel_noIs _ _ (fun t op h => opSelects_no_is t op (Or.inl h))
  apply binLevel_noIs _ _ (fun t op h => opSelects_no_is t op (Or.inr (Or.inl h)))
  exact parseUnary_noIs pe hpe

lemma exprCore_noIs (pe : ExprParser) (hpe : ParserNoIs pe) :
    ParserNoIs (exprCore pe) := by
  intro ts e rest hp
  unfold exprCore at hp
  split at hp
  · rename_i thenE rest0 heq0
    have h0 := parseOrE_noIs pe hpe _ _ _ heq0
    split at hp
    · split at hp
      · rename_i cond rest4 heq1
        split at hp
        · rename_i elseE rest5 heq2
          cases hp
          have h1 := parseOrE_noIs pe hpe _ _ _ heq1
          have h2 := parseOrE_noIs pe hpe _ _ _ heq2
          simp [noIs, h0, h1, h2]
        · cases hp; exact h0
      · cases hp; exact h0
    · cases hp; exact h0
  · cases hp

lemma parseExprF_noIs : ∀ (fuel : Nat), ParserNoIs (parseExprF fuel) := by
  intro fuel
  induction fuel with
  | zero => intro ts e rest hp; cases hp
  | succ n ih => exact fun ts e rest hp => exprCore_noIs _ ih ts e rest hp

/-- C1 counterexample: on the token stream of `@a is @b` the expression
grammar stops in front of `is`: it returns the reference `@a` with the
tokens `is @b` unconsumed, and no input makes it return a complete parse
of this stream — `is` is not accepted as a binary operator. -/
theorem expr_is_counterexample :
    parseExpr [Tok.atSign, .ident "a", Tok.isKw, Tok.atSign, .ident "b"]
      = some (.reference ⟨"a", []⟩, [Tok.isKw, Tok.atSign, .ident "b"]) ∧
    ∀ e : Expr,
      parseExpr [Tok.atSign, .ident "a", Tok.isKw, Tok.atSign, .ident "b"]
        ≠ some (e, []) := by
  refine ⟨rfl, ?_⟩
  intro e h
  rw [show parseExpr [Tok.atSign, .ident "a", Tok.isKw, Tok.atSign, .ident "b"]
      = some (.reference ⟨"a", []⟩, [Tok.isKw, Tok.atSign, .ident "b"]) from rfl] at h
  simp at h

/-- C1 amended: the expression grammar never produces a `BinOp::Is` or
`BinOp::IsNot` node (its comparison level handles exactly
`== != <= >= < >`); the `BinOp` type nevertheless declares `Is`/`IsNot`,
and the `precedence()` table of `src/ast.rs` places them strictly between
`And` and the comparison operators. -/
theorem expr_never_produces_is :
    (∀ (fuel : Nat) (ts : List Tok) (e : Expr) (rest : List Tok),
      parseExprF fuel ts = some (e, rest) → noIs e = true) ∧
    (∀ (ts : List Tok) (e : Expr) (rest : List Tok),
      parseExpr ts = some (e, rest) → noIs e = true) ∧
    (∀ t op, comparisonOpSelect t = some op →
      op = .eq ∨ op = .ne ∨ op = .le ∨ op = .ge ∨ op = .lt ∨ op = .gt) ∧
    (BinOp.precedence .and < BinOp.precedence .is ∧
     BinOp.precedence .is = BinOp.precedence .isNot ∧
     BinOp.precedence .isNot < BinOp.precedence .eq) := by
  refine ⟨fun fuel => parseExprF_noIs fuel, fun ts => parseExprF_noIs _ ts, ?_, ?_⟩
  · intro t op h
    cases t with
    | kw k => cases k <;> simp_all [comparisonOpSelect] <;> simp [← h]
    | _ => simp_all [comparisonOpSelect]
  · exact ⟨by decide, by decide, by decide⟩

/-- Witness for the amended C1: `@a == @b` parses completely into an
`Eq` node, which the theorem certifies `Is`-free. -/
theorem expr_never_produces_is_witness :
    parseExpr [Tok.atSign, .ident "a", Tok.eq, Tok.atSign, .ident "b"]
      = some (.binOp (.reference ⟨"a", []⟩) .eq (.reference ⟨"b", []⟩), []) ∧
    noIs (.binOp (.reference ⟨"a", []⟩) .eq (.reference ⟨"b", []⟩)) = true :=
  ⟨rfl, expr_never_produces_is.2.1
    [Tok.atSign, .ident "a", Tok.eq, Tok.atSign, .ident "b"] _ [] rfl⟩

/-! ## Instruction-DSL expression builders
(`build_interpolation_expr`, `build_condition_expr` in
`crates/parser/src/parser/instructions.rs`)

Spans are bookkeeping only in these functions (no branch depends on
them), so the embedding works on plain token lists. -/

/-- The reference-segment tokens of `build_interpolation_expr`
(the condition variant accepts a smaller set). -/
def interpRefSegSelect : Tok → Option String
  | .variables => some "variables"
  | .actions => some "actions"
  | .outputs => some "outputs"
  | .topic => some "topic"
  | .inputs => some "inputs"
  | .ident s => some s
  | _ => none

/-- The reference-segment tokens of `build_condition_expr`
(no `topic`, no `inputs`). -/
def condRefSegSelect : Tok → Option String
  | .variables => some "variables"
  | .actions => some "actions"
  | .outputs => some "outputs"
  | .ident s => some s
  | _ => none

/-- The inner `while` after `Token::At`: collect reference segments,
skipping dots, until a non-segment token. -/
def refScanSegs (sel : Tok → Option String) : List Tok → (List String × List Tok)
  | [] => ([], [])
  | t :: rest =>
    match sel t with
    | some s => ((s :: (refScanSegs sel rest).1), (refScanSegs sel rest).2)
    | none =>
      if t = .dot then refScanSegs sel rest
      else ([], t :: rest)

/-- Assemble the collected segments:
`namespace = first (default empty), path = rest`. -/
def refExprOf (segs : List String) : Expr :=
  .reference { ns := segs.headD "", path := segs.tail }

/-- The operator arms of the `build_interpolation_expr` scan. -/
def interpOpSelect : Tok → Option BinOp
  | .plus => some .add
  | .minus => some .sub
  | .andKw => some .and
  | .orKw => some .or
  | .eq => some .eq
  | .ne => some .ne
  | .lt => some .lt
  | .gt => some .gt
  | .le => some .le
  | .ge => some .ge
  | _ => none

/-- The atom arms of the `build_interpolation_expr` scan. -/
def interpAtomSelect : Tok → Option Expr
  | .stringLit s => some (.string s)
  | .numberLit n => some (.number n)
  | .trueLit => some (.bool true)
  | .falseLit => some (.bool false)
  | .noneLit => some .noneE
  | _ => none

/-- The scan loop of `build_interpolation_expr`: one pass over the
tokens collecting `expr_parts` and `ops` in order of appearance.
Unrecognised tokens are skipped.  `fuel` bounds the loop (one token is
consumed per iteration, so `length + 1` suffices). -/
def interpScanF : Nat → List Tok → (List Expr × List BinOp)
  | 0, _ => ([], [])
  | _ + 1, [] => ([], [])
  | fuel + 1, t :: rest =>
    match t with
    | .atSign =>
      ((refExprOf (refScanSegs interpRefSegSelect rest).1
          :: (interpScanF fuel (refScanSegs interpRefSegSelect rest).2).1),
        (interpScanF fuel (refScanSegs interpRefSegSelect rest).2).2)
    | _ =>
      match interpAtomSelect t with
      | some e => ((e :: (interpScanF fuel rest).1), (interpScanF fuel rest).2)
      | none =>
        match interpOpSelect t with
        | some op => ((interpScanF fuel rest).1, (op :: (interpScanF fuel rest).2))
        | none => interpScanF fuel rest

def interpScan (ts : List Tok) : (List Expr × List BinOp) :=
  interpScanF (ts.length + 1) ts

/-- The fold of `build_interpolation_expr`: for each operator in order,
if expression parts remain, pair it with the next part. -/
def foldInterp (result : Expr) : List BinOp → List Expr → Expr
  | [], _ => result
  | _ :: ops, [] => foldInterp result ops []
  | op :: ops, r :: parts => foldInterp (.binOp result op r) ops parts

/-- `build_interpolation_expr` (spans dropped). -/
def buildInterpolationExpr (tokens : List Tok) : Expr :=
  if tokens.isEmpty then .noneE
  else
    match interpScan tokens with
    | ([], _) => .noneE
    | (e :: parts, ops) => foldInterp e ops parts

/-- The atom arms of the `build_condition_expr` scan (note: no `None`
literal). -/
def condAtomSelect : Tok → Option Expr
  | .stringLit s => some (.string s)
  | .numberLit n => some (.number n)
  | .trueLit => some (.bool true)
  | .falseLit => some (.bool false)
  | _ => none

/-- The operator arms of the `build_condition_expr` scan (note: no
`+`/`-`). -/
def condOpSelect : Tok → Option BinOp
  | .andKw => some .and
  | .orKw => some .or
  | .eq => some .eq
  | .ne => some .ne
  | .lt => some .lt
  | .gt => some .gt
  | .le => some .le
  | .ge => some .ge
  | _ => none

/-- `negate_next` application: wrap the atom in `UnaryOp::Not` when a
`not` token preceded it. -/
def maybeNeg (neg : Bool) (e : Expr) : Expr :=
  if neg then .unaryOp .not e else e

/-- The scan loop of `build_condition_expr` with its `negate_next`
flag. -/
def condScanF : Nat → Bool → List Tok → (List Expr × List BinOp)
  | 0, _, _ => ([], [])
  | _ + 1, _, [] => ([], [])
  | fuel + 1, neg, t :: rest =>
    match t with
    | .notKw => condScanF fuel true rest
    | .atSign =>
      ((maybeNeg neg (refExprOf (refScanSegs condRefSegSelect rest).1)
          :: (condScanF fuel false (refScanSegs condRefSegSelect rest).2).1),
        (condScanF fuel false (refScanSegs condRefSegSelect rest).2).2)
    | _ =>
      match condAtomSelect t with
      | some e =>
        ((maybeNeg neg e :: (condScanF fuel false rest).1),
          (condScanF fuel false rest).2)
      | none =>
        match condOpSelect t with
        | some op => ((condScanF fuel neg rest).1, (op :: (condScanF fuel neg rest).2))
        | none => condScanF fuel neg rest

def condScan (ts : List Tok) : (List Expr × List BinOp) :=
  condScanF (ts.length + 1) false ts

/-- The fold of `build_condition_expr`: `for (i, op) in
ops.enumerate()`, pairing only while `i < expr_parts.len()` on the
shrinking parts list. -/
def foldCond (i : Nat) (result : Expr) : List BinOp → List Expr → Expr
  | [], _ => result
  | op :: ops, parts =>
    if i < parts.length then
      (match parts with
       | r :: parts2 => foldCond (i + 1) (.binOp result op r) ops parts2
       | [] => foldCond (i + 1) result ops [])
    else foldCond (i + 1) result ops parts

/-- `build_condition_expr` (spans dropped). -/
def buildConditionExpr (tokens : List Tok) : Expr :=
  if tokens.isEmpty then .bool true
  else
    match condScan tokens with
    | ([], _) => .bool true
    | (e :: parts, ops) => foldCond 0 e ops parts

/-- A plain left fold of binary operator/operand pairs, the specified
shape of the instruction-DSL expressions. -/
def leftFoldExpr (e : Expr) : List (BinOp × Expr) → Expr
  | [] => e
  | (op, r) :: rest => leftFoldExpr (.binOp e op r) rest

lemma foldInterp_spec : ∀ (ops : List BinOp) (parts : List Expr) (e : Expr),
    foldInterp e ops parts = leftFoldExpr e (ops.zip parts) := by
  intro ops
  induction ops with
  | nil => intro parts e; simp [foldInterp, leftFoldExpr]
  | cons op ops ih =>
    intro parts e
    cases parts with
    | nil => simpa [foldInterp, leftFoldExpr] using ih [] e
    | cons r parts2 => simpa [foldInterp, leftFoldExpr] using ih parts2 _

lemma foldCond_spec : ∀ (ops : List BinOp) (parts : List Expr) (i : Nat) (e : Expr),
    foldCond i e ops parts
      = leftFoldExpr e ((ops.zip parts).take
          (min ops.length ((parts.length - i + 1) / 2))) := by
  intro ops
  induction ops with
  | nil => intro parts i e; simp [foldCond, leftFoldExpr]
  | cons op ops ih =>
    intro parts i e
    by_cases hi : i < parts.length
    · cases parts with
      | nil => simp at hi
      | cons r parts2 =>
        simp only [foldCond, if_pos hi]
        rw [ih]
        have harith :
            min (op :: ops).length (((r :: parts2).length - i + 1) / 2)
              = (min ops.length ((parts2.length - (i + 1) + 1) / 2)) + 1 := by
          simp only [List.length_cons] at hi ⊢
          rw [min_def, min_def]
          split <;> split <;> omega
        rw [harith]
        simp [leftFoldExpr, List.zip]
    · simp only [foldCond, if_neg hi]
      rw [ih]
      have h0 : parts.length - i = 0 := by omega
      have h1 : parts.length - (i + 1) = 0 := by omega
      simp [h0, h1, leftFoldExpr]

/-- Operator tokens of the interpolation scan are neither reference
segments, dots, atoms, nor the `@` sign. -/
lemma interpOp_disjoint (t : Tok) (op : BinOp) (h : interpOpSelect t = some op) :
    interpRefSegSelect t = none ∧ t ≠ Tok.dot ∧ interpAtomSelect t = none ∧
      t ≠ Tok.atSign := by
  cases t with
  | kw k =>
    cases k <;>
      simp_all [interpOpSelect, interpRefSegSelect, interpAtomSelect,
        Tok.dot, Tok.atSign]
  | _ => simp_all [interpOpSelect, interpRefSegSelect, interpAtomSelect,
      Tok.dot, Tok.atSign]

/-- Operator tokens of the condition scan are neither reference
segments, dots, atoms, `not`, nor the `@` sign. -/
lemma condOp_disjoint (t : Tok) (op : BinOp) (h : condOpSelect t = some op) :
    condRefSegSelect t = none ∧ t ≠ Tok.dot ∧ condAtomSelect t = none ∧
      t ≠ Tok.atSign ∧ t ≠ Tok.notKw := by
  cases t with
  | kw k =>
    cases k <;>
      simp_all [condOpSelect, condRefSegSelect, condAtomSelect,
        Tok.dot, Tok.atSign, Tok.notKw]
  | _ => simp_all [condOpSelect, condRefSegSelect, condAtomSelect,
      Tok.dot, Tok.atSign, Tok.notKw]

/-- A break position for the reference-segment scan. -/
def RefBreak (sel : Tok → Option String) (T : List Tok) : Prop :=
  T = [] ∨ ∃ t rest, T = t :: rest ∧ sel t = none ∧ t ≠ Tok.dot

lemma refScanSegs_break (sel : Tok → Option String) (T : List Tok)
    (h : RefBreak sel T) : refScanSegs sel T = ([], T) := by
  rcases h with rfl | ⟨t, rest, rfl, h1, h2⟩
  · rfl
  · simp [refScanSegs, h1, h2]

lemma interpScanF_nil (n : Nat) : interpScanF n [] = ([], []) := by
  cases n <;> rfl

lemma condScanF_nil (n : Nat) (neg : Bool) : condScanF n neg [] = ([], []) := by
  cases n <;> rfl

/-- One reference atom step of the interpolation scan. -/
lemma interpScanF_ref_step (a : String) (n : Nat) (R : List Tok)
    (hR : RefBreak interpRefSegSelect R) :
    interpScanF (n + 1) (Tok.atSign :: Tok.ident a :: R)
      = (Expr.reference ⟨a, []⟩ :: (interpScanF n R).1, (interpScanF n R).2) := by
  have h1 : refScanSegs interpRefSegSelect (Tok.ident a :: R) = ([a], R) := by
    simp [refScanSegs, interpRefSegSelect, refScanSegs_break _ R hR]
  simp [interpScanF, Tok.atSign, h1, refExprOf]

/-- One operator step of the interpolation scan. -/
lemma interpScanF_op_step (t : Tok) (op : BinOp)
    (h : interpOpSelect t = some op) (n : Nat) (R : List Tok) :
    interpScanF (n + 1) (t :: R)
      = ((interpScanF n R).1, op :: (interpScanF n R).2) := by
  cases t with
  | kw k => cases k <;> simp_all [interpScanF, interpOpSelect, interpAtomSelect]
  | _ => simp_all [interpScanF, interpOpSelect, interpAtomSelect]

/-- One reference atom step of the condition scan. -/
lemma condScanF_ref_step (a : String) (n : Nat) (neg : Bool) (R : List Tok)
    (hR : RefBreak condRefSegSelect R) :
    condScanF (n + 1) neg (Tok.atSign :: Tok.ident a :: R)
      = (maybeNeg neg (.reference ⟨a, []⟩) :: (condScanF n false R).1,
         (condScanF n false R).2) := by
  have h1 : refScanSegs condRefSegSelect (Tok.ident a :: R) = ([a], R) := by
    simp [refScanSegs, condRefSegSelect, refScanSegs_break _ R hR]
  simp [condScanF, Tok.atSign, h1, refExprOf]

/-- One operator step of the condition scan (the `negate_next` flag is
untouched by operator tokens). -/
lemma condScanF_op_step (t : Tok) (op : BinOp)
    (h : condOpSelect t = some op) (n : Nat) (neg : Bool) (R : List Tok) :
    condScanF (n + 1) neg (t :: R)
      = ((condScanF n neg R).1, op :: (condScanF n neg R).2) := by
  cases t with
  | kw k => cases k <;> simp_all [condScanF, condOpSelect, condAtomSelect]
  | _ => simp_all [condScanF, condOpSelect, condAtomSelect]

/-- Interleaved reference atoms (`@a0 op1 @a1 op2 @a2 ...`) as a token
list.  Each entry of `rest` is an (operator token, operator) pair plus
the name of the following reference. -/
def refInterleave (a0 : String) (rest : List ((Tok × BinOp) × String)) :
    List Tok :=
  Tok.atSign :: Tok.ident a0
    :: rest.flatMap (fun q => [q.1.1, Tok.atSign, Tok.ident q.2])

lemma refInterleave_length (a0 : String) (rest : List ((Tok × BinOp) × String)) :
    (refInterleave a0 rest).length = 3 * rest.length + 2 := by
  induction rest with
  | nil => rfl
  | cons q rest ih =>
    simp only [refInterleave, List.flatMap_cons, List.cons_append,
      List.nil_append, List.length_cons] at ih ⊢
    omega

lemma interpScanF_interleave (rest : List ((Tok × BinOp) × String)) :
    ∀ (a0 : String) (fuel : Nat),
      (∀ q ∈ rest, interpOpSelect q.1.1 = some q.1.2) →
      2 * rest.length + 2 ≤ fuel →
      interpScanF fuel (refInterleave a0 rest)
        = (Expr.reference ⟨a0, []⟩
             :: rest.map (fun q => Expr.reference ⟨q.2, []⟩),
           rest.map (fun q => q.1.2)) := by
  induction rest with
  | nil =>
    intro a0 fuel _ hf
    obtain ⟨n, rfl⟩ : ∃ n, fuel = n + 1 := ⟨fuel - 1, by omega⟩
    rw [show refInterleave a0 [] = [Tok.atSign, Tok.ident a0] from rfl]
    rw [interpScanF_ref_step a0 n [] (Or.inl rfl)]
    simp [interpScanF_nil]
  | cons q rest ih =>
    intro a0 fuel hops hf
    obtain ⟨n, rfl⟩ : ∃ n, fuel = n + 2 := ⟨fuel - 2, by simp at hf; omega⟩
    obtain ⟨hseg, hdot, hatom, hat⟩ :=
      interpOp_disjoint q.1.1 q.1.2 (hops q (by simp))
    rw [show refInterleave a0 (q :: rest)
        = Tok.atSign :: Tok.ident a0 :: q.1.1 :: refInterleave q.2 rest by
      simp [refInterleave]]
    rw [show (n + 2 : Nat) = (n + 1) + 1 from rfl]
    rw [interpScanF_ref_step a0 (n + 1) _ (Or.inr ⟨q.1.1, _, rfl, hseg, hdot⟩)]
    rw [interpScanF_op_step q.1.1 q.1.2 (hops q (by simp)) n _]
    rw [ih q.2 n (fun r hr => hops r (by simp [hr])) (by simp at hf ⊢; omega)]
    simp

lemma condScanF_interleave (rest : List ((Tok × BinOp) × String)) :
    ∀ (a0 : String) (fuel : Nat),
      (∀ q ∈ rest, condOpSelect q.1.1 = some q.1.2) →
      2 * rest.length + 2 ≤ fuel →
      condScanF fuel false (refInterleave a0 rest)
        = (Expr.reference ⟨a0, []⟩
             :: rest.map (fun q => Expr.reference ⟨q.2, []⟩),
           rest.map (fun q => q.1.2)) := by
  induction rest with
  | nil =>
    intro a0 fuel _ hf
    obtain ⟨n, rfl⟩ : ∃ n, fuel = n + 1 := ⟨fuel - 1, by omega⟩
    rw [show refInterleave a0 [] = [Tok.atSign, Tok.ident a0] from rfl]
    rw [condScanF_ref_step a0 n false [] (Or.inl rfl)]
    simp [condScanF_nil, maybeNeg]
  | cons q rest ih =>
    intro a0 fuel hops hf
    obtain ⟨n, rfl⟩ : ∃ n, fuel = n + 2 := ⟨fuel - 2, by simp at hf; omega⟩
    obtain ⟨hseg, hdot, hatom, hat, hnot⟩ :=
      condOp_disjoint q.1.1 q.1.2 (hops q (by simp))
    rw [show refInterleave a0 (q :: rest)
        = Tok.atSign :: Tok.ident a0 :: q.1.1 :: refInterleave q.2 rest by
      simp [refInterleave]]
    rw [show (n + 2 : Nat) = (n + 1) + 1 from rfl]
    rw [condScanF_ref_step a0 (n + 1) false _ (Or.inr ⟨q.1.1, _, rfl, hseg, hdot⟩)]
    rw [condScanF_op_step q.1.1 q.1.2 (hops q (by simp)) n false _]
    rw [ih q.2 n (fun r hr => hops r (by simp [hr])) (by simp at hf ⊢; omega)]
    simp [maybeNeg]

/-- C10 counterexample: the condition tokens of `@a or @b and @c` are
built into `(@a or @b)` — the second operator `and` and the operand `@c`
are silently dropped by the `i < expr_parts.len()` guard — not into the
claimed `(@a or @b) and @c`. -/
theorem condition_expr_fold_counterexample :
    buildConditionExpr [Tok.atSign, .ident "a", Tok.orKw, Tok.atSign,
        .ident "b", Tok.andKw, Tok.atSign, .ident "c"]
      = .binOp (.reference ⟨"a", []⟩) .or (.reference ⟨"b", []⟩) ∧
    buildConditionExpr [Tok.atSign, .ident "a", Tok.orKw, Tok.atSign,
        .ident "b", Tok.andKw, Tok.atSign, .ident "c"]
      ≠ .binOp (.binOp (.reference ⟨"a", []⟩) .or (.reference ⟨"b", []⟩))
          .and (.reference ⟨"c", []⟩) := by
  constructor
  · rfl
  · intro h
    rw [show buildConditionExpr [Tok.atSign, .ident "a", Tok.orKw, Tok.atSign,
        .ident "b", Tok.andKw, Tok.atSign, .ident "c"]
      = .binOp (.reference ⟨"a", []⟩) .or (.reference ⟨"b", []⟩) from rfl] at h
    simp at h

/-- C10 amended: both instruction-DSL expression builders ignore
operator precedence and pair operators with operands left to right in
order of appearance, but they differ in how far the fold runs.
`build_interpolation_expr` pairs the i-th operator with the (i+1)-th
operand for every operator (so `a or b and c` becomes `(a or b) and c`);
`build_condition_expr` pairs the i-th operator only while `i` is smaller
than the number of still-unconsumed operands, so with n+1 operands only
the first `⌈n/2⌉` operators are applied and the rest of the condition is
silently dropped (`a or b and c` becomes `a or b`). -/
theorem instruction_expr_flat_fold :
    (∀ (ops : List BinOp) (parts : List Expr) (e : Expr),
      foldInterp e ops parts = leftFoldExpr e (ops.zip parts)) ∧
    (∀ (ops : List BinOp) (parts : List Expr) (i : Nat) (e : Expr),
      foldCond i e ops parts
        = leftFoldExpr e ((ops.zip parts).take
            (min ops.length ((parts.length - i + 1) / 2)))) ∧
    (∀ (a0 : String) (rest : List ((Tok × BinOp) × String)),
      (∀ q ∈ rest, interpOpSelect q.1.1 = some q.1.2) →
      buildInterpolationExpr (refInterleave a0 rest)
        = leftFoldExpr (.reference ⟨a0, []⟩)
            (rest.map (fun q => (q.1.2, Expr.reference ⟨q.2, []⟩)))) ∧
    (∀ (a0 : String) (rest : List ((Tok × BinOp) × String)),
      (∀ q ∈ rest, condOpSelect q.1.1 = some q.1.2) →
      buildConditionExpr (refInterleave a0 rest)
        = leftFoldExpr (.reference ⟨a0, []⟩)
            ((rest.map (fun q => (q.1.2, Expr.reference ⟨q.2, []⟩))).take
              ((rest.length + 1) / 2))) := by
  refine ⟨foldInterp_spec, foldCond_spec, ?_, ?_⟩
  · intro a0 rest hops
    have hlen := refInterleave_length a0 rest
    have hscan := interpScanF_interleave rest a0 ((refInterleave a0 rest).length + 1)
      hops (by omega)
    rw [buildInterpolationExpr, if_neg (by simp [refInterleave]),
      interpScan, hscan]
    change foldInterp _ _ _ = _
    rw [foldInterp_spec]
    congr 1
    rw [List.zip_map']
  · intro a0 rest hops
    have hlen := refInterleave_length a0 rest
    have hscan := condScanF_interleave rest a0 ((refInterleave a0 rest).length + 1)
      hops (by omega)
    rw [buildConditionExpr, if_neg (by simp [refInterleave]),
      condScan, hscan]
    change foldCond 0 _ _ _ = _
    rw [foldCond_spec]
    have hm : min (rest.map (fun q => q.1.2)).length
        (((rest.map (fun q => Expr.reference ⟨q.2, []⟩)).length - 0 + 1) / 2)
        = (rest.length + 1) / 2 := by
      simp only [List.length_map]
      omega
    rw [hm, List.zip_map']

/-- Witness for the amended C10 at `@a or @b and @c`: the interpolation
builder folds both operators; the condition builder keeps only the
first. -/
theorem instruction_expr_flat_fold_witness :
    ((∀ q ∈ ([((Tok.orKw, BinOp.or), "b"), ((Tok.andKw, BinOp.and), "c")] :
        List ((Tok × BinOp) × String)), interpOpSelect q.1.1 = some q.1.2) ∧
      buildInterpolationExpr (refInterleave "a"
          [((Tok.orKw, .or), "b"), ((Tok.andKw, .and), "c")])
        = .binOp (.binOp (.reference ⟨"a", []⟩) .or (.reference ⟨"b", []⟩))
            .and (.reference ⟨"c", []⟩)) ∧
    ((∀ q ∈ ([((Tok.orKw, BinOp.or), "b"), ((Tok.andKw, BinOp.and), "c")] :
        List ((Tok × BinOp) × String)), condOpSelect q.1.1 = some q.1.2) ∧
      buildConditionExpr (refInterleave "a"
          [((Tok.orKw, .or), "b"), ((Tok.andKw, .and), "c")])
        = .binOp (.reference ⟨"a", []⟩) .or (.reference ⟨"b", []⟩)) := by
  constructor
  · refine ⟨by decide, ?_⟩
    rw [instruction_expr_flat_fold.2.2.1 "a"
      [((Tok.orKw, .or), "b"), ((Tok.andKw, .and), "c")] (by decide)]
    rfl
  · refine ⟨by decide, ?_⟩
    rw [instruction_expr_flat_fold.2.2.2 "a"
      [((Tok.orKw, .or), "b"), ((Tok.andKw, .and), "c")] (by decide)]
    rfl

/-! ## C6: variable declarations and the `= None` check
(`src/parser/variables.rs`, `variable_decl`) -/

/-- `Type` from `src/ast.rs`. -/
inductive Ty where
  | string | number | boolean | object | date | timestamp | currency
  | id | datetime | time | integer | long
  | list (inner : Ty)
  deriving Repr, DecidableEq

/-- `VariableKind` from `src/ast.rs`. -/
inductive VariableKind where
  | mutable | linked
  deriving Repr, DecidableEq

/-- The `simple_type` token selection of `type_spec()`. -/
def simpleTypeSelect : Tok → Option Ty
  | .stringTy => some .string
  | .numberTy => some .number
  | .booleanTy => some .boolean
  | .objectTy => some .object
  | .dateTy => some .date
  | .timestampTy => some .timestamp
  | .currencyTy => some .currency
  | .idTy => some .id
  | .datetimeTy => some .datetime
  | .timeTy => some .time
  | .integerTy => some .integer
  | .longTy => some .long
  | _ => none

/-- `type_spec()`: `list[inner]` or a scalar type (the `list_type`
alternative is tried first).  Fuel bounds the `list` nesting. -/
def parseTyF : Nat → List Tok → Option (Ty × List Tok)
  | 0, _ => none
  | fuel + 1, ts =>
    match ts with
    | .listTy :: .lbracket :: rest =>
      (match parseTyF fuel rest with
       | some (inner, .rbracket :: rest2) => some (.list inner, rest2)
       | _ => none)
    | t :: rest =>
      (match simpleTypeSelect t with
       | some ty => some (ty, rest)
       | none => none)
    | [] => none

def parseTy (ts : List Tok) : Option (Ty × List Tok) :=
  parseTyF (ts.length + 1) ts

/-- Run the (token-level) expression grammar on a spanned stream,
splitting the spanned stream at the same point. -/
def runExprSp (ts : List STok) : Option (Expr × List STok) :=
  match parseExpr (ts.map Prod.fst) with
  | some (e, rest) => some (e, ts.drop (ts.length - rest.length))
  | none => none

/-- Run the reference grammar on a spanned stream. -/
def runRefSp (ts : List STok) : Option (Reference × List STok) :=
  match parseRef (ts.map Prod.fst) with
  | some (r, rest) => some (r, ts.drop (ts.length - rest.length))
  | none => none

/-- Run the type grammar on a spanned stream. -/
def runTySp (ts : List STok) : Option (Ty × List STok) :=
  match parseTy (ts.map Prod.fst) with
  | some (ty, rest) => some (ty, ts.drop (ts.length - rest.length))
  | none => none

/-- `skip_block_noise()`: zero or more `Newline`/`Comment` tokens. -/
def skipBlockNoise : List STok → List STok
  | (Tok.newline, _) :: rest => skipBlockNoise rest
  | (Tok.comment _, _) :: rest => skipBlockNoise rest
  | ts => ts

/-- `VarDeclEntry` from `src/parser/variables.rs`. -/
inductive VarDeclEntry where
  | descriptionE (s : String) (sp : Sp)
  | sourceE (r : Reference)
  deriving Repr

/-- `var_decl_entry()`: a `description:` or `source:` entry. -/
def varDeclEntry : List STok → Option (VarDeclEntry × List STok)
  | (Tok.description, _) :: (Tok.colon, _) :: (Tok.stringLit s, sp) :: rest =>
    some (.descriptionE s sp, rest)
  | (Tok.source, _) :: (Tok.colon, _) :: rest =>
    (match runRefSp rest with
     | some (r, rest2) => some (.sourceE r, rest2)
     | none => none)
  | _ => none

/-- The entry list of the optional nested block:
`var_decl_entry separated_by skip_block_noise allow_trailing`. -/
def varEntriesLoop : Nat → List STok → (List VarDeclEntry × List STok)
  | 0, ts => ([], ts)
  | fuel + 1, ts =>
    match varDeclEntry ts with
    | some (en, rest) =>
      ((en :: (varEntriesLoop fuel (skipBlockNoise rest)).1),
        (varEntriesLoop fuel (skipBlockNoise rest)).2)
    | none => ([], ts)

/-- The optional nested metadata block of a variable declaration:
`newline skip_block_noise indent entries skip_block_noise dedent`. -/
def varNestedBlock (ts : List STok) : Option (List VarDeclEntry × List STok) :=
  match ts with
  | (Tok.newline, _) :: rest =>
    (match skipBlockNoise rest with
     | (Tok.indent, _) :: rest2 =>
       (match skipBlockNoise (varEntriesLoop (rest2.length + 1) rest2).2 with
        | (Tok.dedent, _) :: rest3 =>
          some ((varEntriesLoop (rest2.length + 1) rest2).1, rest3)
        | _ => none)
     | _ => none)
  | _ => none

/-- `VariableDecl` (span-reduced: only the data the claims use). -/
structure VariableDecl where
  name : String
  nameSpan : Sp
  kind : VariableKind
  ty : Ty
  default : Option Expr
  entries : List VarDeclEntry
  deriving Repr

/-- `matches!(def.node, Expr::None)`. -/
def isNoneExpr : Expr → Bool
  | .noneE => true
  | _ => false

/-- The error emitted by the `.validate` step of `variable_decl` (the
message carries the variable name and its type; the span is
`e.span()`). -/
structure NoneDefaultError where
  span : Sp
  name : String
  ty : Ty
  deriving Repr

/-- The `.validate(...)` closure of `variable_decl`: `= None` is only
valid for Boolean-typed declarations; otherwise emit one error spanning
the whole declaration. -/
def noneCheck (decl : VariableDecl) (declSpan : Sp) : List NoneDefaultError :=
  match decl.default with
  | some d =>
    if isNoneExpr d ∧ ¬ (decl.ty = Ty.boolean) then
      [{ span := declSpan, name := decl.name, ty := decl.ty }]
    else []
  | none => []

/-- `e.span()` of a parse that consumed `orig` down to `rest`: from the
start of the first consumed token to the end of the last consumed
token. -/
def consumedSpan (orig rest : List STok) : Sp :=
  { start := ((orig.take (orig.length - rest.length)).head?.map
      (fun p => p.2.start)).getD 0,
    stop := ((orig.take (orig.length - rest.length)).getLast?.map
      (fun p => p.2.stop)).getD 0 }

/-- The parsing chain of `variable_decl` without the `.validate` step:
`name : (mutable|linked) type [= expr] [nested-metadata]`. -/
def varDeclCore (ts : List STok) : Option (VariableDecl × List STok) :=
  match ts with
  | (Tok.ident name, nameSp) :: (Tok.colon, _) :: rest =>
    (match rest with
     | (kt, _) :: rest2 =>
       (match (match kt with
               | Tok.mutable => some VariableKind.mutable
               | Tok.linked => some VariableKind.linked
               | _ => none) with
        | some kind =>
          (match runTySp rest2 with
           | some (ty, rest3) =>
             let defStep : Option Expr × List STok :=
               match rest3 with
               | (Tok.assign, _) :: rest4 =>
                 (match runExprSp rest4 with
                  | some (e, rest5) => (some e, rest5)
                  | none => (none, rest3))
               | _ => (none, rest3)
             let nestStep : List VarDeclEntry × List STok :=
               match varNestedBlock defStep.2 with
               | some (entries, rest6) => (entries, rest6)
               | none => ([], defStep.2)
             some ({ name := name, nameSpan := nameSp, kind := kind, ty := ty,
                     default := defStep.1, entries := nestStep.1 },
                   nestStep.2)
           | none => none)
        | none => none)
     | [] => none)
  | _ => none

/-- `variable_decl()`: the parse chain followed by the `.validate`
`= None` check at the full declaration span. -/
def variableDecl (ts : List STok) :
    Option (VariableDecl × List NoneDefaultError × List STok) :=
  match varDeclCore ts with
  | some (decl, rest) => some (decl, noneCheck decl (consumedSpan ts rest), rest)
  | none => none

/-- C6: a variable declaration whose default expression is `None` emits
exactly one error, spanning the whole declaration (first to last
consumed token), unless the declared type is Boolean; a Boolean
declaration, or one whose default is absent or not `None`, emits no
error. -/
theorem variable_decl_none_default_check (ts : List STok)
    (decl : VariableDecl) (errs : List NoneDefaultError) (rest : List STok)
    (h : variableDecl ts = some (decl, errs, rest)) :
    ((∃ d, decl.default = some d ∧ isNoneExpr d = true) → decl.ty ≠ .boolean →
      errs = [{ span := consumedSpan ts rest, name := decl.name,
                ty := decl.ty }]) ∧
    (decl.ty = .boolean → errs = []) ∧
    ((∀ d, decl.default = some d → isNoneExpr d = false) → errs = []) := by
  unfold variableDecl at h
  cases hc : varDeclCore ts with
  | none => rw [hc] at h; cases h
  | some v =>
    obtain ⟨decl2, rest2⟩ := v
    rw [hc] at h
    obtain ⟨rfl, rfl, rfl⟩ :
        decl2 = decl ∧ noneCheck decl2 (consumedSpan ts rest2) = errs ∧
          rest2 = rest := by
      have h2 := Option.some.inj h
      exact ⟨congrArg (fun p => p.1) h2,
        congrArg (fun p => p.2.1) h2, congrArg (fun p => p.2.2) h2⟩
    refine ⟨?_, ?_, ?_⟩
    · rintro ⟨d, hd, hn⟩ hb
      simp [noneCheck, hd, hn, hb]
    · intro hb
      unfold noneCheck
      cases decl2.default with
      | none => rfl
      | some d => simp [hb]
    · intro hnd
      unfold noneCheck
      cases hd : decl2.default with
      | none => rfl
      | some d => simp [hnd d hd]

/-- Witness for C6 on `x: mutable string = None` (one error spanning the
whole declaration, bytes 0–24) and `x: mutable boolean = None` (no
error). -/
theorem variable_decl_none_default_check_witness :
    (variableDecl [(Tok.ident "x", ⟨0, 1⟩), (Tok.colon, ⟨1, 2⟩),
        (Tok.mutable, ⟨3, 10⟩), (Tok.stringTy, ⟨11, 17⟩),
        (Tok.assign, ⟨18, 19⟩), (Tok.noneLit, ⟨20, 24⟩)]
      = some ({ name := "x", nameSpan := ⟨0, 1⟩, kind := .mutable,
                ty := .string, default := some .noneE, entries := [] },
          [{ span := ⟨0, 24⟩, name := "x", ty := .string }], []) ∧
      [({ span := ⟨0, 24⟩, name := "x", ty := Ty.string } : NoneDefaultError)]
        = [NoneDefaultError.mk
            (consumedSpan [(Tok.ident "x", ⟨0, 1⟩), (Tok.colon, ⟨1, 2⟩),
              (Tok.mutable, ⟨3, 10⟩), (Tok.stringTy, ⟨11, 17⟩),
              (Tok.assign, ⟨18, 19⟩), (Tok.noneLit, ⟨20, 24⟩)] [])
            "x" Ty.string]) ∧
    (variableDecl [(Tok.ident "x", ⟨0, 1⟩), (Tok.colon, ⟨1, 2⟩),
        (Tok.mutable, ⟨3, 10⟩), (Tok.booleanTy, ⟨11, 18⟩),
        (Tok.assign, ⟨19, 20⟩), (Tok.noneLit, ⟨21, 25⟩)]
      = some ({ name := "x", nameSpan := ⟨0, 1⟩, kind := .mutable,
                ty := .boolean, default := some .noneE, entries := [] },
          [], []) ∧
      ([] : List NoneDefaultError) = []) := by
  refine ⟨⟨rfl, ?_⟩, rfl, ?_⟩
  · have h := variable_decl_none_default_check
      [(Tok.ident "x", ⟨0, 1⟩), (Tok.colon, ⟨1, 2⟩), (Tok.mutable, ⟨3, 10⟩),
       (Tok.stringTy, ⟨11, 17⟩), (Tok.assign, ⟨18, 19⟩), (Tok.noneLit, ⟨20, 24⟩)]
      { name := "x", nameSpan := ⟨0, 1⟩, kind := .mutable, ty := .string,
        default := some .noneE, entries := [] }
      [{ span := ⟨0, 24⟩, name := "x", ty := .string }] [] rfl
    exact h.1 ⟨.noneE, rfl, rfl⟩ (by decide)
  · have h := variable_decl_none_default_check
      [(Tok.ident "x", ⟨0, 1⟩), (Tok.colon, ⟨1, 2⟩), (Tok.mutable, ⟨3, 10⟩),
       (Tok.booleanTy, ⟨11, 18⟩), (Tok.assign, ⟨19, 20⟩), (Tok.noneLit, ⟨21, 25⟩)]
      { name := "x", nameSpan := ⟨0, 1⟩, kind := .mutable, ty := .boolean,
        default := some .noneE, entries := [] }
      [] [] rfl
    exact h.2.1 rfl

/-! ## Dynamic instructions (`src/crates/parser/src/parser/instructions.rs`)

The `:->` instruction body is re-parsed from its collected token slice
by `parse_instruction_parts_with_depth`.  The embedding below works on
suffixes of the token list instead of an index `i` into a slice; every
`while tokens[i] != X {i += 1}` loop becomes `splitAtTok X`, every
`if matches!(tokens[i], X) {i += 1}` becomes `dropTok X`, and the Rust
`match` over payload-free token variants becomes equality tests.
Spans are dropped: no claim below depends on instruction sub-spans. -/

/-- `InstructionPart` from the parser AST (spans dropped). -/
inductive InstructionPart where
  | text (s : String)
  | interpolation (e : Expr)
  | conditional (condition : Expr) (thenParts : List InstructionPart)
      (elseParts : Option (List InstructionPart))
  deriving Repr

/-- Keyword half of `token_to_text`. -/
def kwText : Kw → String
  | .config => "config"
  | .variables => "variables"
  | .system => "system"
  | .startAgent => "start_agent"
  | .topic => "topic"
  | .actions => "actions"
  | .inputs => "inputs"
  | .outputs => "outputs"
  | .target => "target"
  | .reasoning => "reasoning"
  | .instructions => "instructions"
  | .beforeReasoning => "before_reasoning"
  | .afterReasoning => "after_reasoning"
  | .messages => "messages"
  | .welcome => "welcome"
  | .errorKw => "error"
  | .connection => "connection"
  | .connections => "connections"
  | .knowledge => "knowledge"
  | .language => "language"
  | .mutable => "mutable"
  | .linked => "linked"
  | .description => "description"
  | .source => "source"
  | .label => "label"
  | .isRequired => "is_required"
  | .isDisplayable => "is_displayable"
  | .isUsedByPlanner => "is_used_by_planner"
  | .complexDataTypeName => "complex_data_type_name"
  | .filterFromAgent => "filter_from_agent"
  | .requireUserConfirmation => "require_user_confirmation"
  | .includeInProgressIndicator => "include_in_progress_indicator"
  | .progressIndicatorMessage => "progress_indicator_message"
  | .stringTy => "string"
  | .numberTy => "number"
  | .booleanTy => "boolean"
  | .objectTy => "object"
  | .listTy => "list"
  | .dateTy => "date"
  | .timestampTy => "timestamp"
  | .currencyTy => "currency"
  | .idTy => "id"
  | .datetimeTy => "datetime"
  | .timeTy => "time"
  | .integerTy => "integer"
  | .longTy => "long"
  | .ifKw => "if"
  | .elseKw => "else"
  | .runKw => "run"
  | .withKw => "with"
  | .setKw => "set"
  | .toKw => "to"
  | .asKw => "as"
  | .transition => "transition"
  | .available => "available"
  | .whenKw => "when"
  | .trueLit => "True"
  | .falseLit => "False"
  | .noneLit => "None"
  | .eq => "=="
  | .ne => "!="
  | .lt => "<"
  | .gt => ">"
  | .le => "<="
  | .ge => ">="
  | .assign => "="
  | .isKw => "is"
  | .notKw => "not"
  | .andKw => "and"
  | .orKw => "or"
  | .plus => "+"
  | .minus => "-"
  | .colon => ":"
  | .dot => "."
  | .comma => ","
  | .atSign => "@"
  | .pipe => "|"
  | .arrow => "->"
  | .colonPipe => ":|"
  | .colonArrow => ":->"
  | .lparen => "("
  | .rparen => ")"
  | .lbracket => "["
  | .rbracket => "]"
  | .lbrace => "\x7b"
  | .rbrace => "\x7d"
  | .exclBrace => "\x7b!"
  | .doubleLBrace => "\x7b\x7b"
  | .doubleBrace => "\x7d\x7d"
  | .ellipsis => "..."
  | .slash => "/"
  | .question => "?"
  | .exclamation => "!"
  | .dollar => "$"
  | .percent => "%"
  | .star => "*"
  | .ampersand => "&"
  | .semicolon => ";"
  | .backtick => "\x60"
  | .tilde => "~"
  | .caret => "^"
  | .backslash => "\\"
  | .underscore => "_"
  | .apostrophe => "\x27"

/-- Digit-string to `Nat` (the integer rendering `{}` of `*n as i64`
on the non-negative literals the lexer produces). -/
def natOfDigits (cs : List Char) : Nat :=
  cs.foldl (fun acc c => acc * 10 + (c.toNat - 48)) 0

/-- Split a raw number slice at its first dot. -/
def splitFrac : List Char → List Char × Option (List Char)
  | [] => ([], none)
  | c :: rest =>
    if c = '.' then ([], some rest)
    else
      let p := splitFrac rest
      (c :: p.1, p.2)

/-- The `NumberLit` case of `token_to_text`: fract-free values render as
`i64`, the rest through `f64::to_string` (modelled on the raw decimal
slice the literal was scanned from: trailing fractional zeros drop, and
a fraction of zeros collapses to the integer rendering). -/
def numberText (raw : String) : String :=
  let p := splitFrac raw.toList
  match p.2 with
  | none => toString (natOfDigits p.1)
  | some fp =>
    let fpTrim := (fp.reverse.dropWhile (fun c => c = '0')).reverse
    if fpTrim.isEmpty then toString (natOfDigits p.1)
    else toString (natOfDigits p.1) ++ "." ++ String.mk fpTrim

/-- `token_to_text`: the text a token contributes to an instruction
line.  Comments and indentation markers contribute nothing. -/
def tokenToText : Tok → String
  | .kw k => kwText k
  | .unicodeText s => s
  | .ident s => s
  | .stringLit s => "\"" ++ s ++ "\""
  | .numberLit raw => numberText raw
  | .comment _ => ""
  | .newline => "\n"
  | .indent => ""
  | .dedent => ""

/-- `needs_space_before`. -/
def needsSpaceBefore (s : String) : Bool :=
  match s.toList with
  | c :: _ =>
    !(c = ':' || c = '.' || c = ',' || c = ')' || c = ']' || c = '\x7d'
      || c = '!' || c = '?')
  | [] => true

/-- `needs_space_after_last`. -/
def needsSpaceAfterLast (s : String) : Bool :=
  match s.toList.getLast? with
  | some c => !(c = '(' || c = '[' || c = '\x7b' || c = '@')
  | none => true

/-- `append_token_text`. -/
def appendTokenText (text : String) (tok : Tok) : String :=
  let s := tokenToText tok
  if s.isEmpty then text
  else if !text.isEmpty && needsSpaceBefore s && needsSpaceAfterLast text then
    text ++ " " ++ s
  else text ++ s

/-- `while i < len && tokens[i] != x { i += 1 }`: splits into the
scanned prefix and the suffix starting at the first `x` (or `([], ts)`
exhausted). -/
def splitAtTok (x : Tok) : List Tok → List Tok × List Tok
  | [] => ([], [])
  | t :: rest =>
    if t = x then ([], t :: rest)
    else
      let p := splitAtTok x rest
      (t :: p.1, p.2)

/-- `if i < len && matches!(tokens[i], x) { i += 1 }`. -/
def dropTok (x : Tok) (ts : List Tok) : List Tok :=
  match ts with
  | t :: r => if t = x then r else ts
  | [] => ts

/-- The marker-skipping loop shared by `skip_if_block` / `skip_run_block`:
from nesting `depth`, consume until the matching `Dedent`. -/
def skipBalanced : Nat → List Tok → List Tok
  | _, [] => []
  | depth, t :: rest =>
    if t = Tok.indent then skipBalanced (depth + 1) rest
    else if t = Tok.dedent then
      if depth = 1 then rest else skipBalanced (depth - 1) rest
    else skipBalanced depth rest

/-- `collect_block_tokens`: collect an indented block, keeping interior
`Indent`/`Dedent` markers but not the closing `Dedent`; returns the
block and the suffix after it. -/
def collectBlockTokens : Nat → List Tok → List Tok × List Tok
  | _, [] => ([], [])
  | depth, t :: rest =>
    if t = Tok.indent then
      let p := collectBlockTokens (depth + 1) rest
      (t :: p.1, p.2)
    else if t = Tok.dedent then
      if depth = 1 then ([], rest)
      else
        let p := collectBlockTokens (depth - 1) rest
        (t :: p.1, p.2)
    else
      let p := collectBlockTokens depth rest
      (t :: p.1, p.2)

/-- The continuation collector of the `Pipe` branch: like
`collectBlockTokens` but interior markers are dropped too. -/
def collectContToks : Nat → List Tok → List Tok × List Tok
  | _, [] => ([], [])
  | depth, t :: rest =>
    if t = Tok.indent then collectContToks (depth + 1) rest
    else if t = Tok.dedent then
      if depth = 1 then ([], rest) else collectContToks (depth - 1) rest
    else
      let p := collectContToks depth rest
      (t :: p.1, p.2)

/-- The interpolation collector of `parse_text_line_with_interpolations`:
tokens up to the `RBrace` matching the opening `{!` (braces nest); the
returned suffix still starts at that closing `RBrace`. -/
def collectInterpToks : Nat → List Tok → List Tok × List Tok
  | _, [] => ([], [])
  | depth, t :: rest =>
    if t = Tok.lbrace then
      let p := collectInterpToks (depth + 1) rest
      (t :: p.1, p.2)
    else if t = Tok.rbrace then
      if depth = 1 then ([], t :: rest)
      else
        let p := collectInterpToks (depth - 1) rest
        (t :: p.1, p.2)
    else
      let p := collectInterpToks depth rest
      (t :: p.1, p.2)

/-- `parse_text_line_with_interpolations`, fuelled: accumulate token
text until a `{!`, flush the text, build the interpolation expression
from the tokens up to the matching brace, continue after it. -/
def parseTextLineF : Nat → String → List Tok → List InstructionPart
  | 0, text, _ => if text.isEmpty then [] else [.text text]
  | _ + 1, text, [] => if text.isEmpty then [] else [.text text]
  | fuel + 1, text, t :: rest =>
    if t = Tok.exclBrace then
      let pre : List InstructionPart := if text.isEmpty then [] else [.text text]
      let p := collectInterpToks 1 rest
      let rem := dropTok Tok.rbrace p.2
      pre ++ .interpolation (buildInterpolationExpr p.1) :: parseTextLineF fuel "" rem
    else
      parseTextLineF fuel (appendTokenText text t) rest

/-- `parse_text_line_with_interpolations` at its call sites (each loop
step consumes at least one token, so `length + 1` fuel runs it out of
input, never out of fuel). -/
def parseTextLineWithInterpolations (ts : List Tok) : List InstructionPart :=
  parseTextLineF (ts.length + 1) "" ts

/-- The `t.push('\n')` on the last `Text` part before a continuation is
appended. -/
def appendNewlineToLastText : List InstructionPart → List InstructionPart
  | [] => []
  | [p] =>
    match p with
    | .text t => [.text (t ++ "\n")]
    | _ => [p]
  | p :: rest => p :: appendNewlineToLastText rest

/-- The else half of `skip_if_block`. -/
def skipElsePart (a : List Tok) : List Tok :=
  match a with
  | t :: r =>
    if t = Tok.elseKw then
      let b1 := dropTok Tok.colon r
      let b2 := dropTok Tok.newline b1
      match b2 with
      | u :: s => if u = Tok.indent then skipBalanced 1 s else b2
      | [] => b2
    else a
  | [] => a

/-- `skip_if_block`: discard an entire `if` block (condition, then-block
and any else-block) without parsing it. -/
def skipIfBlock (ts : List Tok) : List Tok :=
  let sp := splitAtTok Tok.colon ts
  let a1 := dropTok Tok.colon sp.2
  let a2 := dropTok Tok.newline a1
  let a3 :=
    match a2 with
    | t :: r => if t = Tok.indent then skipBalanced 1 r else a2
    | [] => a2
  skipElsePart a3

/-- `skip_run_block`. -/
def skipRunBlock (ts : List Tok) : List Tok :=
  let sp := splitAtTok Tok.newline ts
  let a1 := dropTok Tok.newline sp.2
  match a1 with
  | t :: r => if t = Tok.indent then skipBalanced 1 r else a1
  | [] => a1

/-- `parse_instruction_parts_with_depth`, fuelled, with `parse_if_block`
inlined at its unique (depth-0) call site.  The `Comment`/`Newline` arm
of the source loop advances by one token exactly like the default arm
and is folded into the final else.  `if` at `if_depth > 0` is skipped
via `skipIfBlock`; `if` at depth 0 parses its condition up to the `:`,
expects `Newline`+`Indent`, parses the collected then-block (and any
else-block) at depth 1, and otherwise produces no part. -/
def parsePartsF : Nat → List Tok → Nat → List InstructionPart
  | 0, _, _ => []
  | _ + 1, [], _ => []
  | fuel + 1, t :: rest, ifDepth =>
    if t = Tok.pipe then
      let sp := splitAtTok Tok.newline rest
      let after := dropTok Tok.newline sp.2
      let cr :=
        match after with
        | u :: r => if u = Tok.indent then collectContToks 1 r else ([], after)
        | [] => ([], after)
      let lineParts := parseTextLineWithInterpolations sp.1
      let parts :=
        if cr.1.isEmpty then lineParts
        else appendNewlineToLastText lineParts ++ parseTextLineWithInterpolations cr.1
      parts ++ parsePartsF fuel cr.2 ifDepth
    else if t = Tok.ifKw then
      if 0 < ifDepth then
        parsePartsF fuel (skipIfBlock (t :: rest)) ifDepth
      else
        let sp := splitAtTok Tok.colon rest
        let condition := buildConditionExpr sp.1
        let a1 := dropTok Tok.colon sp.2
        let a2 := dropTok Tok.newline a1
        match a2 with
        | u :: r =>
          if u = Tok.indent then
            let tb := collectBlockTokens 1 r
            let thenParts := parsePartsF fuel tb.1 1
            match tb.2 with
            | v :: r3 =>
              if v = Tok.elseKw then
                let b1 := dropTok Tok.colon r3
                let b2 := dropTok Tok.newline b1
                match b2 with
                | w :: r6 =>
                  if w = Tok.indent then
                    let eb := collectBlockTokens 1 r6
                    InstructionPart.conditional condition thenParts
                        (some (parsePartsF fuel eb.1 1))
                      :: parsePartsF fuel eb.2 ifDepth
                  else
                    InstructionPart.conditional condition thenParts none
                      :: parsePartsF fuel b2 ifDepth
                | [] =>
                  InstructionPart.conditional condition thenParts none
                    :: parsePartsF fuel b2 ifDepth
              else
                InstructionPart.conditional condition thenParts none
                  :: parsePartsF fuel tb.2 ifDepth
            | [] =>
              InstructionPart.conditional condition thenParts none
                :: parsePartsF fuel tb.2 ifDepth
          else
            parsePartsF fuel a2 ifDepth
        | [] => parsePartsF fuel a2 ifDepth
    else if t = Tok.runKw then
      parsePartsF fuel (skipRunBlock (t :: rest)) ifDepth
    else
      parsePartsF fuel rest ifDepth

/-- `parse_instruction_parts` (depth 0; every loop step consumes at
least the head token of its suffix, so `length + 1` fuel suffices). -/
def parseInstructionParts (ts : List Tok) : List InstructionPart :=
  parsePartsF (ts.length + 1) ts 0

/-- Well-formedness of marker nesting inside a collected block: scanning
from nesting level `d`, the level never returns to zero and is `1` at
the end of the list, so the next `Dedent` token is the one that closes
the block. -/
def stayBal : Nat → List Tok → Bool
  | d, [] => d == 1
  | d, t :: rest =>
    if t = Tok.indent then stayBal (d + 1) rest
    else if t = Tok.dedent then
      if d ≤ 1 then false else stayBal (d - 1) rest
    else stayBal d rest

lemma splitAtTok_spec (x : Tok) (pre tl : List Tok) (h : x ∉ pre) :
    splitAtTok x (pre ++ x :: tl) = (pre, x :: tl) := by
  induction pre with
  | nil => simp [splitAtTok]
  | cons a pre ih =>
    have ha : ¬ (a = x) := fun hh => h (by simp [hh])
    have hx : x ∉ pre := fun hh => h (List.mem_cons_of_mem _ hh)
    simp [splitAtTok, ha, ih hx]

lemma collectBlockTokens_through (body : List Tok) :
    ∀ (d : Nat) (rest : List Tok), stayBal d body = true →
      collectBlockTokens d (body ++ Tok.dedent :: rest) = (body, rest) := by
  induction body with
  | nil =>
    intro d rest h
    have hd : d = 1 := by simpa [stayBal] using h
    subst hd
    simp [collectBlockTokens]
  | cons t body ih =>
    intro d rest h
    by_cases hi : t = Tok.indent
    · subst hi
      simp only [stayBal, if_pos rfl] at h
      simp [collectBlockTokens, ih (d + 1) rest h]
    · by_cases hd2 : t = Tok.dedent
      · subst hd2
        simp only [stayBal, hi, if_false, if_neg] at h
        rcases (by simpa using h : ¬ d ≤ 1 ∧ stayBal (d - 1) body = true) with ⟨hle, h⟩
        have hne1 : ¬ (d = 1) := by omega
        simp [collectBlockTokens, hne1, ih (d - 1) rest h]
      · simp only [stayBal, hi, hd2, if_false] at h
        simp [collectBlockTokens, hi, hd2, ih d rest h]

lemma skipBalanced_through (body : List Tok) :
    ∀ (d : Nat) (rest : List Tok), stayBal d body = true →
      skipBalanced d (body ++ Tok.dedent :: rest) = rest := by
  induction body with
  | nil =>
    intro d rest h
    have hd : d = 1 := by simpa [stayBal] using h
    subst hd
    simp [skipBalanced]
  | cons t body ih =>
    intro d rest h
    by_cases hi : t = Tok.indent
    · subst hi
      simp only [stayBal, if_pos rfl] at h
      simp [skipBalanced, ih (d + 1) rest h]
    · by_cases hd2 : t = Tok.dedent
      · subst hd2
        simp only [stayBal, hi, if_false, if_neg] at h
        rcases (by simpa using h : ¬ d ≤ 1 ∧ stayBal (d - 1) body = true) with ⟨hle, h⟩
        have hne1 : ¬ (d = 1) := by omega
        simp [skipBalanced, hne1, ih (d - 1) rest h]
      · simp only [stayBal, hi, hd2, if_false] at h
        simp [skipBalanced, hi, hd2, ih d rest h]

lemma skipElsePart_no_else (a : List Tok) (h : a.head? ≠ some Tok.elseKw) :
    skipElsePart a = a := by
  cases a with
  | nil => rfl
  | cons t r =>
    have ht : ¬ (t = Tok.elseKw) := fun hh => h (by simp [hh])
    simp [skipElsePart, ht]

lemma colon_notmem_if_cons (cond : List Tok) (hc : Tok.colon ∉ cond) :
    Tok.colon ∉ (Tok.ifKw :: cond) := by
  intro hmem
  rcases List.mem_cons.mp hmem with h | h
  · exact absurd h (by decide)
  · exact hc h

lemma skipIfBlock_no_else (cond body rest : List Tok)
    (hc : Tok.colon ∉ cond) (hb : stayBal 1 body = true)
    (hr : rest.head? ≠ some Tok.elseKw) :
    skipIfBlock (Tok.ifKw :: cond ++ Tok.colon :: Tok.newline :: Tok.indent ::
      (body ++ Tok.dedent :: rest)) = rest := by
  have hsp := splitAtTok_spec Tok.colon (Tok.ifKw :: cond)
      (Tok.newline :: Tok.indent :: (body ++ Tok.dedent :: rest))
      (colon_notmem_if_cons cond hc)
  simp only [List.cons_append] at hsp
  have hsb := skipBalanced_through body 1 rest hb
  have hse := skipElsePart_no_else rest hr
  simp [skipIfBlock, hsp, dropTok, hsb, hse]

lemma skipIfBlock_with_else (cond thenB elseB rest : List Tok)
    (hc : Tok.colon ∉ cond) (hthen : stayBal 1 thenB = true)
    (helse : stayBal 1 elseB = true) :
    skipIfBlock (Tok.ifKw :: cond ++ Tok.colon :: Tok.newline :: Tok.indent ::
      (thenB ++ Tok.dedent :: Tok.elseKw :: Tok.colon :: Tok.newline ::
        Tok.indent :: (elseB ++ Tok.dedent :: rest))) = rest := by
  have hsp := splitAtTok_spec Tok.colon (Tok.ifKw :: cond)
      (Tok.newline :: Tok.indent :: (thenB ++ Tok.dedent :: Tok.elseKw ::
        Tok.colon :: Tok.newline :: Tok.indent :: (elseB ++ Tok.dedent :: rest)))
      (colon_notmem_if_cons cond hc)
  simp only [List.cons_append] at hsp
  have hsb1 := skipBalanced_through thenB 1
      (Tok.elseKw :: Tok.colon :: Tok.newline :: Tok.indent ::
        (elseB ++ Tok.dedent :: rest)) hthen
  have hsb2 := skipBalanced_through elseB 1 rest helse
  simp [skipIfBlock, hsp, dropTok, hsb1, skipElsePart, hsb2]

/-- **C7.**  In dynamic (`:->`) instruction parsing, an `if` block met
at `if_depth > 0` — which is how both branches of a `Conditional` are
parsed, since `parse_if_block` parses them with
`parse_instruction_parts_with_depth(_, 1)` — is skipped in its entirety
(condition, then-block, and else-block if present): parsing continues
at the tokens after the block, no `Conditional` part is produced for
it, and no error is emitted (the embedding, like the source, has no
error channel here).  The same `if` block met at depth `0` produces a
`Conditional` part whose condition is `build_condition_expr` of the
tokens before the `:` and whose branches are the collected block
tokens parsed recursively at depth `1`.  `cond` may not contain a `:`,
the branch bodies must have properly nested indentation markers
(`stayBal`), and in the else-less shapes `rest` may not begin with
`else` (otherwise it would be taken as this `if`'s else-branch). -/
theorem nested_if_silently_discarded
    (fuel ifDepth : Nat) (cond thenB elseB rest : List Tok)
    (hdep : 0 < ifDepth)
    (hc : Tok.colon ∉ cond)
    (hthen : stayBal 1 thenB = true)
    (helse : stayBal 1 elseB = true)
    (hrest : rest.head? ≠ some Tok.elseKw) :
    (parsePartsF (fuel + 1)
        (Tok.ifKw :: cond ++ Tok.colon :: Tok.newline :: Tok.indent ::
          (thenB ++ Tok.dedent :: rest)) ifDepth
      = parsePartsF fuel rest ifDepth) ∧
    (parsePartsF (fuel + 1)
        (Tok.ifKw :: cond ++ Tok.colon :: Tok.newline :: Tok.indent ::
          (thenB ++ Tok.dedent :: Tok.elseKw :: Tok.colon :: Tok.newline ::
            Tok.indent :: (elseB ++ Tok.dedent :: rest))) ifDepth
      = parsePartsF fuel rest ifDepth) ∧
    (parsePartsF (fuel + 1)
        (Tok.ifKw :: cond ++ Tok.colon :: Tok.newline :: Tok.indent ::
          (thenB ++ Tok.dedent :: rest)) 0
      = InstructionPart.conditional (buildConditionExpr cond)
          (parsePartsF fuel thenB 1) none :: parsePartsF fuel rest 0) ∧
    (parsePartsF (fuel + 1)
        (Tok.ifKw :: cond ++ Tok.colon :: Tok.newline :: Tok.indent ::
          (thenB ++ Tok.dedent :: Tok.elseKw :: Tok.colon :: Tok.newline ::
            Tok.indent :: (elseB ++ Tok.dedent :: rest))) 0
      = InstructionPart.conditional (buildConditionExpr cond)
          (parsePartsF fuel thenB 1) (some (parsePartsF fuel elseB 1))
          :: parsePartsF fuel rest 0) := by
  have hpipe : (Tok.ifKw = Tok.pipe) = False := by simp [Tok.ifKw, Tok.pipe]
  refine ⟨?_, ?_, ?_, ?_⟩
  · have hsk := skipIfBlock_no_else cond thenB rest hc hthen hrest
    simp only [List.cons_append] at hsk
    simp [parsePartsF, hpipe, hdep, hsk]
  · have hsk := skipIfBlock_with_else cond thenB elseB rest hc hthen helse
    simp only [List.cons_append] at hsk
    simp [parsePartsF, hpipe, hdep, hsk]
  · cases rest with
    | nil =>
      have hsp := splitAtTok_spec Tok.colon cond
          (Tok.newline :: Tok.indent :: (thenB ++ [Tok.dedent])) hc
      have hcb := collectBlockTokens_through thenB 1 [] hthen
      simp [parsePartsF, hpipe, hsp, hcb, dropTok]
    | cons v r3 =>
      have hv : ¬ (v = Tok.elseKw) := fun hh => hrest (by simp [hh])
      have hsp := splitAtTok_spec Tok.colon cond
          (Tok.newline :: Tok.indent :: (thenB ++ Tok.dedent :: v :: r3)) hc
      have hcb := collectBlockTokens_through thenB 1 (v :: r3) hthen
      simp [parsePartsF, hpipe, hsp, hcb, dropTok, hv]
  · have hsp := splitAtTok_spec Tok.colon cond
        (Tok.newline :: Tok.indent :: (thenB ++ Tok.dedent :: Tok.elseKw ::
          Tok.colon :: Tok.newline :: Tok.indent :: (elseB ++ Tok.dedent :: rest))) hc
    have hcb1 := collectBlockTokens_through thenB 1
        (Tok.elseKw :: Tok.colon :: Tok.newline :: Tok.indent ::
          (elseB ++ Tok.dedent :: rest)) hthen
    have hcb2 := collectBlockTokens_through elseB 1 rest helse
    simp [parsePartsF, hpipe, hsp, hcb1, hcb2, dropTok]

theorem nested_if_silently_discarded_witness :
    parseInstructionParts
        [Tok.ifKw, Tok.atSign, Tok.ident "x", Tok.colon, Tok.newline, Tok.indent,
         Tok.ifKw, Tok.atSign, Tok.ident "y", Tok.colon, Tok.newline, Tok.indent,
         Tok.pipe, Tok.ident "hi", Tok.newline, Tok.dedent, Tok.dedent]
      = [InstructionPart.conditional
          (buildConditionExpr [Tok.atSign, Tok.ident "x"]) [] none] ∧
    parsePartsF 17
        (Tok.ifKw :: [Tok.atSign, Tok.ident "y"] ++ Tok.colon :: Tok.newline ::
          Tok.indent :: ([Tok.pipe, Tok.ident "hi", Tok.newline] ++ Tok.dedent :: [])) 1
      = parsePartsF 16 [] 1 ∧
    parsePartsF 17
        (Tok.ifKw :: [Tok.atSign, Tok.ident "y"] ++ Tok.colon :: Tok.newline ::
          Tok.indent :: ([Tok.pipe, Tok.ident "hi", Tok.newline] ++ Tok.dedent :: [])) 0
      = InstructionPart.conditional (buildConditionExpr [Tok.atSign, Tok.ident "y"])
          (parsePartsF 16 [Tok.pipe, Tok.ident "hi", Tok.newline] 1) none
        :: parsePartsF 16 [] 0 := by
  have h := nested_if_silently_discarded 16 1
      [Tok.atSign, Tok.ident "y"] [Tok.pipe, Tok.ident "hi", Tok.newline] [] []
      (by decide) (by decide) (by decide) (by decide) (by decide)
  exact ⟨rfl, h.1, h.2.2.1⟩

/-! ## Reference graph (`src/crates/graph/src/`)

`petgraph::graph::DiGraph<RefNode, RefEdge>` is embedded as a node list
(`NodeIndex` = position) plus an edge list of
`(source, target, weight)` triples; the `RefGraph` index maps become
association lists.  `edges_directed(idx, Direction::Outgoing/Incoming)`
become filters of the edge list. -/

/-- `RefNode` (`nodes.rs`); `Span = (usize, usize)`. -/
inductive RefNode where
  | startAgent (span : Nat × Nat)
  | topic (name : String) (span : Nat × Nat)
  | actionDef (name : String) (topic : String) (span : Nat × Nat)
  | reasoningAction (name : String) (topic : String) (target : Option String)
      (span : Nat × Nat)
  | variable (name : String) (mutable : Bool) (span : Nat × Nat)
  | connection (name : String) (span : Nat × Nat)
  deriving Repr, DecidableEq

/-- `RefEdge` (`edges.rs`). -/
inductive RefEdge where
  | routes | transitionsTo | delegates | invokes | reads | writes
  | chains | escalates
  deriving Repr, DecidableEq

/-- `ValidationError` (`graph/error.rs`). -/
inductive ValidationError where
  | unresolvedReference (reference : String) (ns : String) (span : Nat × Nat)
      (context : String)
  | cycleDetected (path : List String)
  | unreachableTopic (name : String) (span : Nat × Nat)
  | unusedActionDef (name : String) (topic : String) (span : Nat × Nat)
  | unusedVariable (name : String) (span : Nat × Nat)
  | uninitializedVariable (name : String) (read_span : Nat × Nat)
  deriving Repr, DecidableEq

/-- `RefGraph` (`lib.rs`). -/
structure RefGraph where
  nodes : List RefNode
  edges : List (Nat × Nat × RefEdge)
  topics : List (String × Nat)
  action_defs : List ((String × String) × Nat)
  reasoning_actions : List ((String × String) × Nat)
  «variables» : List (String × Nat)
  start_agent : Option Nat
  unresolved_references : List ValidationError
  deriving Repr

/-- `self.graph.node_weight(idx)`. -/
def nodeWeight (g : RefGraph) (i : Nat) : Option RefNode :=
  g.nodes.get? i

/-- The targets of the outgoing edges of `i`
(`edges_directed(i, Outgoing)` followed by `.target()`). -/
def outNeighbors (g : RefGraph) (i : Nat) : List Nat :=
  (g.edges.filter (fun e => e.1 = i)).map (fun e => e.2.1)

/-- One directed edge step. -/
def stepRel (g : RefGraph) (a b : Nat) : Prop :=
  b ∈ outNeighbors g a

/-- Reachability by following directed edges — the specification-side
notion that `find_reachable_from` is checked against. -/
def ReachRel (g : RefGraph) (s t : Nat) : Prop :=
  Relation.ReflTransGen (stepRel g) s t

/-- The indices a DFS from `start` can ever insert: `start` itself and
every edge target.  Used only to size the fuel of the embedded
worklist loop. -/
def dfsUniv (g : RefGraph) (start : Nat) : List Nat :=
  start :: g.edges.map (fun e => e.2.1)

/-- Fuel bound for the DFS worklist: every iteration pops one entry,
an already-visited pop shrinks the stack, and a fresh pop pushes at
most `|edges|` new entries while shrinking the not-yet-visited part of
`dfsUniv`. -/
def dfsFuel (g : RefGraph) (start : Nat) (visited stack : List Nat) : Nat :=
  ((dfsUniv g start).filter (fun x => x ∉ visited)).length
      * (g.edges.length + 1)
    + stack.length

/-- The worklist loop of `find_reachable_from`: pop, skip if already
visited, otherwise mark visited and push all out-neighbours (pushed in
iteration order, hence popped in reverse — the head of the list is the
top of the `Vec` stack). -/
def dfsAux (g : RefGraph) : Nat → List Nat → List Nat → List Nat
  | 0, visited, _ => visited
  | _ + 1, visited, [] => visited
  | fuel + 1, visited, i :: stack =>
    if i ∈ visited then dfsAux g fuel visited stack
    else dfsAux g fuel (i :: visited) ((outNeighbors g i).reverse ++ stack)

/-- `find_reachable_from`: the source loop carries no fuel; `dfsFuel`
is an upper bound on its iteration count (proved exact enough in
`dfsAux_complete`), so the embedded function computes the same set. -/
def findReachableFrom (g : RefGraph) (start : Nat) : List Nat :=
  dfsAux g (dfsFuel g start [] [start]) [] [start]

/-- `find_unreachable_topics`. -/
def findUnreachableTopics (g : RefGraph) : List ValidationError :=
  match g.start_agent with
  | none => []
  | some startIdx =>
    let reachable := findReachableFrom g startIdx
    g.topics.filterMap (fun p =>
      if p.2 ∉ reachable then
        match nodeWeight g p.2 with
        | some (RefNode.topic _ span) =>
          some (ValidationError.unreachableTopic p.1 span)
        | _ => none
      else none)

/-- `find_unused_actions`. -/
def findUnusedActions (g : RefGraph) : List ValidationError :=
  g.action_defs.filterMap (fun p =>
    let hasIncoming :=
      g.edges.any (fun e => e.2.1 = p.2 ∧ e.2.2 = RefEdge.invokes)
    if !hasIncoming then
      match nodeWeight g p.2 with
      | some (RefNode.actionDef _ _ span) =>
        some (ValidationError.unusedActionDef p.1.2 p.1.1 span)
      | _ => none
    else none)

/-- `find_unused_variables`. -/
def findUnusedVariables (g : RefGraph) : List ValidationError :=
  g.variables.filterMap (fun p =>
    let hasReaders :=
      g.edges.any (fun e => e.2.1 = p.2 ∧ e.2.2 = RefEdge.reads)
    if !hasReaders then
      match nodeWeight g p.2 with
      | some (RefNode.variable _ _ span) =>
        some (ValidationError.unusedVariable p.1 span)
      | _ => none
    else none)

/-- spec-modelled: `petgraph::algo::is_cyclic_directed` is external
petgraph code (not in this repository); per its documentation it
returns true iff the graph contains a directed cycle, which holds iff
some edge's source is reachable from its target. -/
def isCyclicDirected (g : RefGraph) : Bool :=
  g.edges.any (fun e => e.1 ∈ findReachableFrom g e.2.1)

/-- All node indices. -/
def nodeIdxs (g : RefGraph) : List Nat :=
  List.range g.nodes.length

/-- Mutual reachability. -/
def mutReach (g : RefGraph) (a b : Nat) : Bool :=
  decide (b ∈ findReachableFrom g a ∧ a ∈ findReachableFrom g b)

/-- The strongly connected component of `a`. -/
def sccOf (g : RefGraph) (a : Nat) : List Nat :=
  (nodeIdxs g).filter (fun b => mutReach g a b)

/-- spec-modelled: `petgraph::algo::tarjan_scc` is external petgraph
code (not in this repository); per its documentation it returns the
strongly connected components of the graph.  Modelled as each node's
mutual-reachability class, deduplicated; Tarjan's output lists the
same components, only in a different component order and in-component
node order, and every property proved below is insensitive to both
orders. -/
def sccsOf (g : RefGraph) : List (List Nat) :=
  ((nodeIdxs g).map (sccOf g)).dedup

/-- The `filter_map` body of `find_cycles`: Topic names of SCC
members. -/
def topicNameOf (g : RefGraph) (i : Nat) : Option String :=
  match nodeWeight g i with
  | some (RefNode.topic name _) => some name
  | _ => none

/-- `find_cycles`. -/
def findCycles (g : RefGraph) : List ValidationError :=
  if isCyclicDirected g then
    (sccsOf g).filterMap (fun scc =>
      if 1 < scc.length then
        let path := scc.filterMap (topicNameOf g)
        if path.isEmpty then none
        else some (ValidationError.cycleDetected path)
      else none)
  else []

/-- `ValidationResult`. -/
structure ValidationResult where
  errors : List ValidationError
  warnings : List ValidationError
  deriving Repr

/-- `validate`. -/
def validate (g : RefGraph) : ValidationResult :=
  { errors := g.unresolved_references ++ findCycles g,
    warnings := findUnreachableTopics g ++ findUnusedActions g
      ++ findUnusedVariables g }

lemma dfsAux_sound (g : RefGraph) :
    ∀ (fuel : Nat) (visited stack : List Nat) (x : Nat),
      x ∈ dfsAux g fuel visited stack →
      x ∈ visited ∨ ∃ s ∈ stack, ReachRel g s x := by
  intro fuel
  induction fuel with
  | zero =>
    intro visited stack x hx
    exact Or.inl (by simpa [dfsAux] using hx)
  | succ fuel ih =>
    intro visited stack x hx
    cases stack with
    | nil => exact Or.inl (by simpa [dfsAux] using hx)
    | cons i stack =>
      by_cases hiv : i ∈ visited
      · rw [show dfsAux g (fuel + 1) visited (i :: stack)
            = dfsAux g fuel visited stack from by simp [dfsAux, hiv]] at hx
        rcases ih visited stack x hx with h | ⟨s, hs, hr⟩
        · exact Or.inl h
        · exact Or.inr ⟨s, List.mem_cons_of_mem _ hs, hr⟩
      · rw [show dfsAux g (fuel + 1) visited (i :: stack)
            = dfsAux g fuel (i :: visited)
                ((outNeighbors g i).reverse ++ stack) from by
          simp [dfsAux, hiv]] at hx
        rcases ih _ _ x hx with h | ⟨s, hs, hr⟩
        · rcases List.mem_cons.mp h with rfl | h
          · exact Or.inr ⟨x, List.mem_cons_self _ _, Relation.ReflTransGen.refl⟩
          · exact Or.inl h
        · rcases List.mem_append.mp hs with hs1 | hs2
          · have hstep : stepRel g i s := List.mem_reverse.mp hs1
            exact Or.inr ⟨i, List.mem_cons_self _ _,
              Relation.ReflTransGen.head hstep hr⟩
          · exact Or.inr ⟨s, List.mem_cons_of_mem _ hs2, hr⟩

lemma length_filter_ne_lt (i : Nat) :
    ∀ (l : List Nat), i ∈ l →
      (l.filter (fun x => x ≠ i)).length < l.length := by
  intro l hl
  induction l with
  | nil => cases hl
  | cons a l ih =>
    by_cases hai : a = i
    · subst hai
      rw [List.filter_cons]
      simp only [decide_not]
      simp
      exact Nat.lt_succ_of_le (List.length_filter_le _ _)
    · rcases List.mem_cons.mp hl with h | h
      · exact absurd h.symm hai
      · rw [List.filter_cons]
        simp [hai]
        simpa using ih h

lemma length_filter_notmem_cons (univ visited : List Nat) (i : Nat)
    (hiu : i ∈ univ) (hiv : i ∉ visited) :
    (univ.filter (fun x => x ∉ i :: visited)).length + 1
      ≤ (univ.filter (fun x => x ∉ visited)).length := by
  have hcong : univ.filter (fun x => x ∉ i :: visited)
      = univ.filter (fun x =>
          decide (x ≠ i) && decide (x ∉ visited)) := by
    apply List.filter_congr
    intro x hx
    by_cases h1 : x = i
    · subst h1; simp
    · by_cases h2 : x ∈ visited
      · simp [h1, h2]
      · simp [h1, h2]
  rw [hcong, ← List.filter_filter]
  have hi : i ∈ univ.filter (fun x => x ∉ visited) :=
    List.mem_filter.mpr ⟨hiu, by simpa using hiv⟩
  have hlt := length_filter_ne_lt i (univ.filter (fun x => x ∉ visited)) hi
  omega

lemma dfsAux_complete (g : RefGraph) (start : Nat) :
    ∀ (fuel : Nat) (visited stack : List Nat),
      dfsFuel g start visited stack ≤ fuel →
      (∀ x ∈ stack, x ∈ dfsUniv g start) →
      (∀ v ∈ visited, ∀ y, stepRel g v y → y ∈ visited ∨ y ∈ stack) →
      (∀ v ∈ visited, v ∈ dfsAux g fuel visited stack) ∧
      (∀ s ∈ stack, s ∈ dfsAux g fuel visited stack) ∧
      (∀ v ∈ dfsAux g fuel visited stack, ∀ y, stepRel g v y →
          y ∈ dfsAux g fuel visited stack) := by
  intro fuel
  induction fuel with
  | zero =>
    intro visited stack hfuel hstack hclosed
    have hstacknil : stack = [] := by
      unfold dfsFuel at hfuel
      have : stack.length = 0 := by omega
      exact List.length_eq_zero.mp this
    subst hstacknil
    refine ⟨fun v hv => by simpa [dfsAux] using hv,
      fun s hs => absurd hs (List.not_mem_nil _), ?_⟩
    intro v hv y hy
    have hv' : v ∈ visited := by simpa [dfsAux] using hv
    rcases hclosed v hv' y hy with h | h
    · simpa [dfsAux] using h
    · exact absurd h (List.not_mem_nil _)
  | succ fuel ih =>
    intro visited stack hfuel hstack hclosed
    cases stack with
    | nil =>
      refine ⟨fun v hv => by simpa [dfsAux] using hv,
        fun s hs => absurd hs (List.not_mem_nil _), ?_⟩
      intro v hv y hy
      have hv' : v ∈ visited := by simpa [dfsAux] using hv
      rcases hclosed v hv' y hy with h | h
      · simpa [dfsAux] using h
      · exact absurd h (List.not_mem_nil _)
    | cons i stack =>
      by_cases hiv : i ∈ visited
      · have heq : dfsAux g (fuel + 1) visited (i :: stack)
            = dfsAux g fuel visited stack := by simp [dfsAux, hiv]
        have hfuel' : dfsFuel g start visited stack ≤ fuel := by
          unfold dfsFuel at hfuel ⊢
          simp only [List.length_cons] at hfuel
          omega
        have hclosed' : ∀ v ∈ visited, ∀ y, stepRel g v y →
            y ∈ visited ∨ y ∈ stack := by
          intro v hv y hy
          rcases hclosed v hv y hy with h | h
          · exact Or.inl h
          · rcases List.mem_cons.mp h with rfl | h
            · exact Or.inl hiv
            · exact Or.inr h
        obtain ⟨H1, H2, H3⟩ := ih visited stack hfuel'
          (fun x hx => hstack x (List.mem_cons_of_mem _ hx)) hclosed'
        refine ⟨fun v hv => by rw [heq]; exact H1 v hv, fun s hs => ?_,
          fun v hv y hy => ?_⟩
        · rw [heq]
          rcases List.mem_cons.mp hs with rfl | hs
          · exact H1 s hiv
          · exact H2 s hs
        · rw [heq] at hv ⊢
          exact H3 v hv y hy
      · have hiu : i ∈ dfsUniv g start := hstack i (List.mem_cons_self _ _)
        have heq : dfsAux g (fuel + 1) visited (i :: stack)
            = dfsAux g fuel (i :: visited)
                ((outNeighbors g i).reverse ++ stack) := by
          simp [dfsAux, hiv]
        have hcount := length_filter_notmem_cons (dfsUniv g start) visited i hiu hiv
        have hnb : (outNeighbors g i).length ≤ g.edges.length := by
          unfold outNeighbors
          calc ((g.edges.filter (fun e => e.1 = i)).map (fun e => e.2.1)).length
              = (g.edges.filter (fun e => e.1 = i)).length :=
                List.length_map _ _
            _ ≤ g.edges.length := List.length_filter_le _ _
        have hfuel' : dfsFuel g start (i :: visited)
            ((outNeighbors g i).reverse ++ stack) ≤ fuel := by
          unfold dfsFuel at hfuel ⊢
          simp only [List.length_cons, List.length_append,
            List.length_reverse] at hfuel ⊢
          have key : ((dfsUniv g start).filter
                  (fun x => x ∉ i :: visited)).length * (g.edges.length + 1)
                + (g.edges.length + 1)
              ≤ ((dfsUniv g start).filter
                  (fun x => x ∉ visited)).length * (g.edges.length + 1) := by
            calc ((dfsUniv g start).filter
                    (fun x => x ∉ i :: visited)).length * (g.edges.length + 1)
                  + (g.edges.length + 1)
                = (((dfsUniv g start).filter
                    (fun x => x ∉ i :: visited)).length + 1)
                    * (g.edges.length + 1) := (Nat.succ_mul _ _).symm
              _ ≤ ((dfsUniv g start).filter
                    (fun x => x ∉ visited)).length * (g.edges.length + 1) :=
                  Nat.mul_le_mul_right _ hcount
          generalize ((dfsUniv g start).filter
              (fun x => x ∉ i :: visited)).length * (g.edges.length + 1) = A
            at key ⊢
          generalize ((dfsUniv g start).filter
              (fun x => x ∉ visited)).length * (g.edges.length + 1) = B
            at key hfuel
          omega
        have hstack' : ∀ x ∈ (outNeighbors g i).reverse ++ stack,
            x ∈ dfsUniv g start := by
          intro x hx
          rcases List.mem_append.mp hx with hx | hx
          · have hx' : x ∈ outNeighbors g i := List.mem_reverse.mp hx
            unfold outNeighbors at hx'
            rcases List.mem_map.mp hx' with ⟨e, he, rfl⟩
            exact List.mem_cons_of_mem _
              (List.mem_map.mpr ⟨e, (List.mem_filter.mp he).1, rfl⟩)
          · exact hstack x (List.mem_cons_of_mem _ hx)
        have hclosed' : ∀ v ∈ i :: visited, ∀ y, stepRel g v y →
            y ∈ i :: visited ∨ y ∈ (outNeighbors g i).reverse ++ stack := by
          intro v hv y hy
          rcases List.mem_cons.mp hv with rfl | hv
          · exact Or.inr (List.mem_append.mpr
              (Or.inl (List.mem_reverse.mpr hy)))
          · rcases hclosed v hv y hy with h | h
            · exact Or.inl (List.mem_cons_of_mem _ h)
            · rcases List.mem_cons.mp h with rfl | h
              · exact Or.inl (List.mem_cons_self _ _)
              · exact Or.inr (List.mem_append.mpr (Or.inr h))
        obtain ⟨H1, H2, H3⟩ := ih _ _ hfuel' hstack' hclosed'
        refine ⟨fun v hv => ?_, fun s hs => ?_, fun v hv y hy => ?_⟩
        · rw [heq]; exact H1 v (List.mem_cons_of_mem _ hv)
        · rw [heq]
          rcases List.mem_cons.mp hs with rfl | hs
          · exact H1 s (List.mem_cons_self _ _)
          · exact H2 s (List.mem_append.mpr (Or.inr hs))
        · rw [heq] at hv ⊢
          exact H3 v hv y hy

lemma findReachableFrom_iff (g : RefGraph) (start x : Nat) :
    x ∈ findReachableFrom g start ↔ ReachRel g start x := by
  constructor
  · intro hx
    rcases dfsAux_sound g _ _ _ x hx with h | ⟨s, hs, hr⟩
    · cases h
    · rcases List.mem_cons.mp hs with rfl | h
      · exact hr
      · cases h
  · intro hr
    obtain ⟨H1, H2, H3⟩ := dfsAux_complete g start
        (dfsFuel g start [] [start]) [] [start] (le_refl _)
        (fun x hx => by
          rcases List.mem_cons.mp hx with rfl | h
          · exact List.mem_cons_self _ _
          · exact absurd h (List.not_mem_nil _))
        (fun v hv => absurd hv (List.not_mem_nil _))
    induction hr with
    | refl => exact H2 start (List.mem_cons_self _ _)
    | tail hab hbc ih => exact H3 _ ih _ hbc

/-- **C4.**  With a StartAgent node present, `find_unreachable_topics`
warns about exactly the Topic-index entries whose node is not reachable
from the StartAgent node by following directed edges: membership in the
DFS result set coincides with edge-following reachability (`ReachRel`),
the warning list is precisely the topics index filtered on
non-membership in that set, and every warning names an entry of the
topics index whose Topic node is unreachable — so no reachable Topic
node ever produces a warning. -/
theorem find_unreachable_topics_exactly_unreachable
    (g : RefGraph) (s : Nat) (h : g.start_agent = some s) :
    (∀ x, x ∈ findReachableFrom g s ↔ ReachRel g s x) ∧
    findUnreachableTopics g
      = g.topics.filterMap (fun p =>
          if p.2 ∈ findReachableFrom g s then none
          else match nodeWeight g p.2 with
            | some (RefNode.topic _ span) =>
              some (ValidationError.unreachableTopic p.1 span)
            | _ => none) ∧
    (∀ err ∈ findUnreachableTopics g, ∃ p ∈ g.topics, ∃ tn sp,
        nodeWeight g p.2 = some (RefNode.topic tn sp) ∧
        ¬ ReachRel g s p.2 ∧
        err = ValidationError.unreachableTopic p.1 sp) := by
  refine ⟨findReachableFrom_iff g s, ?_, ?_⟩
  · unfold findUnreachableTopics
    rw [h]
    apply List.filterMap_congr
    intro p hp
    by_cases hmem : p.2 ∈ findReachableFrom g s
    · simp [hmem]
    · simp [hmem]
  · intro err herr
    unfold findUnreachableTopics at herr
    rw [h] at herr
    rcases List.mem_filterMap.mp herr with ⟨p, hp, hfp⟩
    by_cases hmem : p.2 ∈ findReachableFrom g s
    · rw [if_neg (fun hc => hc hmem)] at hfp
      cases hfp
    · rw [if_pos hmem] at hfp
      split at hfp
      · rename_i nm sp heq
        exact ⟨p, hp, nm, sp, heq,
          fun hr => hmem ((findReachableFrom_iff g s p.2).mpr hr),
          (Option.some.inj hfp).symm⟩
      · cases hfp

/-- An example graph: StartAgent 0 routes to Topic `a` (index 1);
Topic `b` (index 2) is unreachable. -/
def gExU : RefGraph :=
  { nodes := [RefNode.startAgent (0, 0), RefNode.topic "a" (1, 1),
      RefNode.topic "b" (2, 2)],
    edges := [(0, 1, RefEdge.routes)],
    topics := [("a", 1), ("b", 2)],
    action_defs := [], reasoning_actions := [], «variables» := [],
    start_agent := some 0, unresolved_references := [] }

theorem find_unreachable_topics_exactly_unreachable_witness :
    findUnreachableTopics gExU = [ValidationError.unreachableTopic "b" (2, 2)] ∧
    (2 ∈ findReachableFrom gExU 0 ↔ ReachRel gExU 0 2) ∧
    (∀ err ∈ findUnreachableTopics gExU, ∃ p ∈ gExU.topics, ∃ tn sp,
        nodeWeight gExU p.2 = some (RefNode.topic tn sp) ∧
        ¬ ReachRel gExU 0 p.2 ∧
        err = ValidationError.unreachableTopic p.1 sp) := by
  have h := find_unreachable_topics_exactly_unreachable gExU 0 rfl
  exact ⟨rfl, h.1 2, h.2.2⟩

/-- The `UnreachableTopic` discriminator. -/
def isUnreachableTopicErr : ValidationError → Bool
  | .unreachableTopic _ _ => true
  | _ => false

lemma findUnusedActions_shape (g : RefGraph) :
    ∀ e ∈ findUnusedActions g, ∃ n t sp,
      e = ValidationError.unusedActionDef n t sp := by
  intro e he
  rcases List.mem_filterMap.mp he with ⟨p, hp, hfp⟩
  split at hfp
  · simp only [Option.ite_none_right_eq_some] at hfp
    exact ⟨_, _, _, (Option.some.inj hfp.2).symm⟩
  · simp [ite_self] at hfp

lemma findUnusedVariables_shape (g : RefGraph) :
    ∀ e ∈ findUnusedVariables g, ∃ n sp,
      e = ValidationError.unusedVariable n sp := by
  intro e he
  rcases List.mem_filterMap.mp he with ⟨p, hp, hfp⟩
  split at hfp
  · simp only [Option.ite_none_right_eq_some] at hfp
    exact ⟨_, _, (Option.some.inj hfp.2).symm⟩
  · simp [ite_self] at hfp

/-- **C9.**  Without a StartAgent node, `find_unreachable_topics`
returns the empty list — the `None => return vec![]` early exit — so
however many topics the graph has, none is reported unreachable, and
`validate`'s warnings (unreachable topics, unused actions, unused
variables) then contain no `UnreachableTopic` entry at all. -/
theorem no_start_agent_no_unreachable_warnings
    (g : RefGraph) (h : g.start_agent = none) :
    findUnreachableTopics g = [] ∧
    ∀ e ∈ (validate g).warnings, isUnreachableTopicErr e = false := by
  have h1 : findUnreachableTopics g = [] := by
    unfold findUnreachableTopics
    rw [h]
  refine ⟨h1, ?_⟩
  intro e he
  replace he : e ∈ findUnreachableTopics g ++ findUnusedActions g
      ++ findUnusedVariables g := he
  rw [h1] at he
  rcases List.mem_append.mp he with h2 | h2
  · rcases List.mem_append.mp h2 with h3 | h3
    · cases h3
    · rcases findUnusedActions_shape g e h3 with ⟨n, t, sp, rfl⟩
      rfl
  · rcases findUnusedVariables_shape g e h2 with ⟨n, sp, rfl⟩
    rfl

/-- `gExU` with the StartAgent index removed (topics still present). -/
def gExN : RefGraph :=
  { nodes := [RefNode.startAgent (0, 0), RefNode.topic "a" (1, 1),
      RefNode.topic "b" (2, 2)],
    edges := [(0, 1, RefEdge.routes)],
    topics := [("a", 1), ("b", 2)],
    action_defs := [], reasoning_actions := [], «variables» := [],
    start_agent := none, unresolved_references := [] }

theorem no_start_agent_no_unreachable_warnings_witness :
    findUnreachableTopics gExN = [] ∧
    ∀ e ∈ (validate gExN).warnings, isUnreachableTopicErr e = false :=
  no_start_agent_no_unreachable_warnings gExN rfl

/-- Whether node `i` is a Topic node. -/
def isTopicB (g : RefGraph) (i : Nat) : Bool :=
  match nodeWeight g i with
  | some (RefNode.topic _ _) => true
  | _ => false

/-- The node kinds `builder.rs` uses as edge sources: `start_idx`
(StartAgent), `topic_idx` (Topic) and `reasoning_idx` / the `from_idx`
of `add_expression_edges` (StartAgent, Topic or ReasoningAction). -/
def sourceKindOK : RefNode → Bool
  | RefNode.startAgent _ => true
  | RefNode.topic _ _ => true
  | RefNode.reasoningAction _ _ _ _ => true
  | _ => false

/-- The node kinds `builder.rs` uses as edge targets: `topic_idx`
(Routes / TransitionsTo / Delegates), `target_idx` / `action_idx`
(ActionDef, Invokes) and `var_idx` (Variable, Reads / Writes). -/
def targetKindOK : RefNode → Bool
  | RefNode.topic _ _ => true
  | RefNode.actionDef _ _ _ => true
  | RefNode.variable _ _ _ => true
  | _ => false

/-- The edge-endpoint discipline every `add_edge` call in `builder.rs`
obeys. -/
def edgeKindsOK (g : RefGraph) : Bool :=
  g.edges.all (fun e =>
    (match nodeWeight g e.1 with
     | some ns => sourceKindOK ns
     | none => false) &&
    (match nodeWeight g e.2.1 with
     | some nt => targetKindOK nt
     | none => false))

/-- One edge step of the subgraph induced by the Topic nodes. -/
def TopicStep (g : RefGraph) (a b : Nat) : Prop :=
  stepRel g a b ∧ isTopicB g a = true ∧ isTopicB g b = true

/-- Spec-side notion: the subgraph induced by the Topic nodes has a
strongly connected component of size greater than one, i.e. two
distinct nodes are mutually reachable along Topic-to-Topic edges. -/
def topicSubgraphHasNontrivialSCC (g : RefGraph) : Prop :=
  ∃ a b, a ≠ b ∧ Relation.ReflTransGen (TopicStep g) a b ∧
    Relation.ReflTransGen (TopicStep g) b a

lemma stepRel_edge (g : RefGraph) (a b : Nat) (h : stepRel g a b) :
    ∃ w, (a, b, w) ∈ g.edges := by
  unfold stepRel outNeighbors at h
  rcases List.mem_map.mp h with ⟨e, he, heq⟩
  have h1 := (List.mem_filter.mp he).1
  have h2 : e.1 = a := by simpa using (List.mem_filter.mp he).2
  refine ⟨e.2.2, ?_⟩
  have he2 : e = (a, b, e.2.2) := by
    obtain ⟨x, y, w⟩ := e
    simp at h2 heq ⊢
    exact ⟨h2, heq⟩
  rw [← he2]
  exact h1

lemma edgeKindsOK_source (g : RefGraph) (hK : edgeKindsOK g = true)
    {a b : Nat} (h : stepRel g a b) :
    ∃ ns, nodeWeight g a = some ns ∧ sourceKindOK ns = true := by
  rcases stepRel_edge g a b h with ⟨w, hw⟩
  have hall := List.all_eq_true.mp hK _ hw
  rw [Bool.and_eq_true] at hall
  have h1 : (match nodeWeight g a with
      | some ns => sourceKindOK ns
      | none => false) = true := hall.1
  revert h1
  cases hnw : nodeWeight g a with
  | none => intro h1; simp at h1
  | some ns => intro h1; exact ⟨ns, rfl, by simpa using h1⟩

lemma edgeKindsOK_target (g : RefGraph) (hK : edgeKindsOK g = true)
    {a b : Nat} (h : stepRel g a b) :
    ∃ nt, nodeWeight g b = some nt ∧ targetKindOK nt = true := by
  rcases stepRel_edge g a b h with ⟨w, hw⟩
  have hall := List.all_eq_true.mp hK _ hw
  rw [Bool.and_eq_true] at hall
  have h2 : (match nodeWeight g b with
      | some nt => targetKindOK nt
      | none => false) = true := hall.2
  revert h2
  cases hnw : nodeWeight g b with
  | none => intro h2; simp at h2
  | some nt => intro h2; exact ⟨nt, rfl, by simpa using h2⟩

lemma node_topic_of_in_out (g : RefGraph) (hK : edgeKindsOK g = true)
    {w i z : Nat} (hin : stepRel g w i) (hout : stepRel g i z) :
    isTopicB g i = true := by
  rcases edgeKindsOK_source g hK hout with ⟨ns, hns, hsk⟩
  rcases edgeKindsOK_target g hK hin with ⟨nt, hnt, htk⟩
  rw [hns] at hnt
  have hnn : ns = nt := Option.some.inj hnt
  subst hnn
  unfold isTopicB
  rw [hns]
  cases ns <;> simp_all [sourceKindOK, targetKindOK]

lemma onCycle_topic (g : RefGraph) (hK : edgeKindsOK g = true)
    {i j : Nat} (hij : ReachRel g i j) (hji : ReachRel g j i)
    (hne : i ≠ j) : isTopicB g i = true := by
  rcases Relation.ReflTransGen.cases_head hij with heq | ⟨c, hic, hcj⟩
  · exact absurd heq hne
  · rcases Relation.ReflTransGen.cases_tail hji with heq | ⟨d, hjd, hdi⟩
    · exact absurd heq hne
    · exact node_topic_of_in_out g hK hdi hic

lemma upgradeReach (g : RefGraph) (hK : edgeKindsOK g = true)
    {x y : Nat} (h : Relation.ReflTransGen (stepRel g) x y)
    (hout : ∃ z, stepRel g y z) (hin : ∃ w, stepRel g w x) :
    Relation.ReflTransGen (TopicStep g) x y := by
  revert hin
  induction h using Relation.ReflTransGen.head_induction_on with
  | refl => intro _; exact Relation.ReflTransGen.refl
  | head h' hrest ih =>
    rename_i a c
    intro hin
    rcases hin with ⟨w, hw⟩
    have hta : isTopicB g a = true := node_topic_of_in_out g hK hw h'
    have htc : isTopicB g c = true := by
      rcases Relation.ReflTransGen.cases_head hrest with heq | ⟨d, hcd, _⟩
      · subst heq
        rcases hout with ⟨z, hz⟩
        exact node_topic_of_in_out g hK h' hz
      · exact node_topic_of_in_out g hK h' hcd
    exact Relation.ReflTransGen.head ⟨h', hta, htc⟩ (ih ⟨a, h'⟩)

lemma mutReach_iff (g : RefGraph) (a b : Nat) :
    mutReach g a b = true ↔ (ReachRel g a b ∧ ReachRel g b a) := by
  unfold mutReach
  rw [decide_eq_true_iff, findReachableFrom_iff, findReachableFrom_iff]

lemma mem_nodeIdxs_of_nodeWeight (g : RefGraph) (i : Nat) (nd : RefNode)
    (h : nodeWeight g i = some nd) : i ∈ nodeIdxs g := by
  unfold nodeWeight at h
  unfold nodeIdxs
  rw [List.mem_range]
  rcases List.get?_eq_some.mp h with ⟨hlt, _⟩
  exact hlt

lemma isTopicB_nodeWeight (g : RefGraph) (i : Nat)
    (h : isTopicB g i = true) :
    ∃ n sp, nodeWeight g i = some (RefNode.topic n sp) := by
  unfold isTopicB at h
  split at h
  · rename_i n sp heq
    exact ⟨n, sp, heq⟩
  · cases h

lemma mem_sccOf (g : RefGraph) (a b : Nat) :
    b ∈ sccOf g a ↔ (b ∈ nodeIdxs g ∧ mutReach g a b = true) := by
  unfold sccOf
  rw [List.mem_filter]

lemma sccOf_nodup (g : RefGraph) (a : Nat) : (sccOf g a).Nodup :=
  List.Nodup.filter _ (List.nodup_range _)

lemma exists_pair_of_one_lt_length {l : List Nat} (hnd : l.Nodup)
    (hl : 1 < l.length) : ∃ a b, a ∈ l ∧ b ∈ l ∧ a ≠ b := by
  cases l with
  | nil => simp at hl
  | cons a l =>
    cases l with
    | nil => simp at hl
    | cons b l =>
      refine ⟨a, b, List.mem_cons_self _ _,
        List.mem_cons_of_mem _ (List.mem_cons_self _ _), ?_⟩
      intro hab
      exact (List.nodup_cons.mp hnd).1 (hab ▸ List.mem_cons_self b l)

lemma one_lt_length_of_pair {l : List Nat} {a b : Nat}
    (ha : a ∈ l) (hb : b ∈ l) (hne : a ≠ b) : 1 < l.length := by
  cases l with
  | nil => cases ha
  | cons x l =>
    cases l with
    | nil =>
      simp at ha hb
      exact absurd (ha.trans hb.symm) hne
    | cons y l =>
      simp only [List.length_cons]
      omega

lemma findCycles_mem_elim (g : RefGraph) (err : ValidationError)
    (herr : err ∈ findCycles g) :
    ∃ x, x ∈ nodeIdxs g ∧ 1 < (sccOf g x).length ∧
      ¬ ((sccOf g x).filterMap (topicNameOf g)).isEmpty = true ∧
      err = ValidationError.cycleDetected
        ((sccOf g x).filterMap (topicNameOf g)) := by
  unfold findCycles at herr
  by_cases hcyc : isCyclicDirected g = true
  · rw [if_pos hcyc] at herr
    rcases List.mem_filterMap.mp herr with ⟨scc, hscc, hf⟩
    rcases List.mem_map.mp (List.mem_dedup.mp hscc) with ⟨x, hx, rfl⟩
    by_cases hlen : 1 < (sccOf g x).length
    · rw [if_pos hlen] at hf
      have hf' : (if ((sccOf g x).filterMap (topicNameOf g)).isEmpty = true
          then none
          else some (ValidationError.cycleDetected
            ((sccOf g x).filterMap (topicNameOf g)))) = some err := hf
      by_cases hpath : ((sccOf g x).filterMap (topicNameOf g)).isEmpty = true
      · rw [if_pos hpath] at hf'
        cases hf'
      · rw [if_neg hpath] at hf'
        exact ⟨x, hx, hlen, hpath, (Option.some.inj hf').symm⟩
    · rw [if_neg hlen] at hf
      cases hf
  · rw [if_neg hcyc] at herr
    cases herr

lemma sccOf_topics (g : RefGraph) (hK : edgeKindsOK g = true) (x : Nat)
    (hlen : 1 < (sccOf g x).length) :
    ∀ i ∈ sccOf g x, isTopicB g i = true := by
  rcases exists_pair_of_one_lt_length (sccOf_nodup g x) hlen
    with ⟨a, b, ha, hb, hne⟩
  intro i hi
  rcases (mutReach_iff g x i).mp ((mem_sccOf g x i).mp hi).2 with ⟨hxi1, hxi2⟩
  rcases (mutReach_iff g x a).mp ((mem_sccOf g x a).mp ha).2 with ⟨hxa1, hxa2⟩
  rcases (mutReach_iff g x b).mp ((mem_sccOf g x b).mp hb).2 with ⟨hxb1, hxb2⟩
  by_cases hia : i = a
  · subst hia
    exact onCycle_topic g hK (hxi2.trans hxb1) (hxb2.trans hxi1) hne
  · exact onCycle_topic g hK (hxi2.trans hxa1) (hxa2.trans hxi1) hia

/-- **C3.**  Under the edge-endpoint discipline the builder establishes
(`edgeKindsOK`: every edge runs from a StartAgent/Topic/ReasoningAction
node to a Topic/ActionDef/Variable node), `find_cycles` reports
something iff the subgraph induced by the Topic nodes has a strongly
connected component of size greater than one; and every reported
`CycleDetected` comes from an SCC of size greater than one all of whose
members are Topic nodes, carrying as its path exactly the Topic names
collected over that SCC (nonempty).  Since under the discipline a
size->1 SCC can only consist of Topic nodes, SCCs without a Topic node
are all singletons and indeed produce no report. -/
theorem find_cycles_iff_topic_scc (g : RefGraph)
    (hK : edgeKindsOK g = true) :
    (findCycles g ≠ [] ↔ topicSubgraphHasNontrivialSCC g) ∧
    (∀ err ∈ findCycles g, ∃ scc ∈ sccsOf g, 1 < scc.length ∧
        (∀ i ∈ scc, isTopicB g i = true) ∧
        scc.filterMap (topicNameOf g) ≠ [] ∧
        err = ValidationError.cycleDetected
          (scc.filterMap (topicNameOf g))) := by
  constructor
  · constructor
    · intro hne
      rcases List.exists_mem_of_ne_nil _ hne with ⟨err, herr⟩
      rcases findCycles_mem_elim g err herr with ⟨x, hx, hlen, hpath, herr'⟩
      rcases exists_pair_of_one_lt_length (sccOf_nodup g x) hlen
        with ⟨a, b, ha, hb, hab⟩
      rcases (mutReach_iff g x a).mp ((mem_sccOf g x a).mp ha).2
        with ⟨hxa1, hxa2⟩
      rcases (mutReach_iff g x b).mp ((mem_sccOf g x b).mp hb).2
        with ⟨hxb1, hxb2⟩
      have hRab : ReachRel g a b := hxa2.trans hxb1
      have hRba : ReachRel g b a := hxb2.trans hxa1
      have houtb : ∃ z, stepRel g b z := by
        rcases Relation.ReflTransGen.cases_head hRba with heq | ⟨c, hbc, _⟩
        · exact absurd heq.symm hab
        · exact ⟨c, hbc⟩
      have hina : ∃ w, stepRel g w a := by
        rcases Relation.ReflTransGen.cases_tail hRba with heq | ⟨d, _, hda⟩
        · exact absurd heq hab
        · exact ⟨d, hda⟩
      have houta : ∃ z, stepRel g a z := by
        rcases Relation.ReflTransGen.cases_head hRab with heq | ⟨c, hac, _⟩
        · exact absurd heq hab
        · exact ⟨c, hac⟩
      have hinb : ∃ w, stepRel g w b := by
        rcases Relation.ReflTransGen.cases_tail hRab with heq | ⟨d, _, hdb⟩
        · exact absurd heq.symm hab
        · exact ⟨d, hdb⟩
      exact ⟨a, b, hab, upgradeReach g hK hRab houtb hina,
        upgradeReach g hK hRba houta hinb⟩
    · rintro ⟨a, b, hab, htab, htba⟩
      have hRab : ReachRel g a b :=
        Relation.ReflTransGen.mono (fun _ _ h => h.1) htab
      have hRba : ReachRel g b a :=
        Relation.ReflTransGen.mono (fun _ _ h => h.1) htba
      have hta : isTopicB g a = true := by
        rcases Relation.ReflTransGen.cases_head htab with heq | ⟨c, hs, _⟩
        · exact absurd heq hab
        · exact hs.2.1
      have htb : isTopicB g b = true := by
        rcases Relation.ReflTransGen.cases_head htba with heq | ⟨c, hs, _⟩
        · exact absurd heq.symm hab
        · exact hs.2.1
      rcases isTopicB_nodeWeight g a hta with ⟨na, spa, hwa⟩
      rcases isTopicB_nodeWeight g b htb with ⟨nb, spb, hwb⟩
      have haIdx : a ∈ nodeIdxs g := mem_nodeIdxs_of_nodeWeight g a _ hwa
      have hbIdx : b ∈ nodeIdxs g := mem_nodeIdxs_of_nodeWeight g b _ hwb
      have hcyc : isCyclicDirected g = true := by
        rcases Relation.ReflTransGen.cases_head hRab with heq | ⟨c, hac, hcb⟩
        · exact absurd heq hab
        · rcases stepRel_edge g a c hac with ⟨w, hw⟩
          unfold isCyclicDirected
          rw [List.any_eq_true]
          refine ⟨(a, c, w), hw, ?_⟩
          rw [decide_eq_true_iff]
          show a ∈ findReachableFrom g c
          exact (findReachableFrom_iff g c a).mpr (hcb.trans hRba)
      have haScc : a ∈ sccOf g a := (mem_sccOf g a a).mpr
        ⟨haIdx, (mutReach_iff g a a).mpr
          ⟨Relation.ReflTransGen.refl, Relation.ReflTransGen.refl⟩⟩
      have hbScc : b ∈ sccOf g a := (mem_sccOf g a b).mpr
        ⟨hbIdx, (mutReach_iff g a b).mpr ⟨hRab, hRba⟩⟩
      have hlen : 1 < (sccOf g a).length :=
        one_lt_length_of_pair haScc hbScc hab
      have hname : na ∈ (sccOf g a).filterMap (topicNameOf g) :=
        List.mem_filterMap.mpr ⟨a, haScc, by unfold topicNameOf; rw [hwa]⟩
      have hpathne : ((sccOf g a).filterMap (topicNameOf g)).isEmpty
          = false := by
        cases hl : (sccOf g a).filterMap (topicNameOf g) with
        | nil => rw [hl] at hname; cases hname
        | cons hd tl => rfl
      have herrMem : ValidationError.cycleDetected
          ((sccOf g a).filterMap (topicNameOf g)) ∈ findCycles g := by
        unfold findCycles
        rw [if_pos hcyc]
        apply List.mem_filterMap.mpr
        refine ⟨sccOf g a,
          List.mem_dedup.mpr (List.mem_map.mpr ⟨a, haIdx, rfl⟩), ?_⟩
        rw [if_pos hlen]
        show (if ((sccOf g a).filterMap (topicNameOf g)).isEmpty = true
            then none
            else some (ValidationError.cycleDetected
              ((sccOf g a).filterMap (topicNameOf g))))
          = some (ValidationError.cycleDetected
              ((sccOf g a).filterMap (topicNameOf g)))
        rw [hpathne]
        simp
      exact List.ne_nil_of_mem herrMem
  · intro err herr
    rcases findCycles_mem_elim g err herr with ⟨x, hx, hlen, hpath, herr'⟩
    refine ⟨sccOf g x,
      List.mem_dedup.mpr (List.mem_map.mpr ⟨x, hx, rfl⟩), hlen,
      sccOf_topics g hK x hlen, ?_, herr'⟩
    intro hnil
    exact hpath (by rw [hnil]; rfl)

/-- An example graph with a topic cycle: StartAgent 0 routes to Topic
`a` (1), `a` transitions to `b` (2), and `b` and `c` (3) transition to
each other. -/
def gExC : RefGraph :=
  { nodes := [RefNode.startAgent (0, 0), RefNode.topic "a" (1, 1),
      RefNode.topic "b" (2, 2), RefNode.topic "c" (3, 3)],
    edges := [(0, 1, RefEdge.routes), (1, 2, RefEdge.transitionsTo),
      (2, 3, RefEdge.transitionsTo), (3, 2, RefEdge.transitionsTo)],
    topics := [("a", 1), ("b", 2), ("c", 3)],
    action_defs := [], reasoning_actions := [], «variables» := [],
    start_agent := some 0, unresolved_references := [] }

theorem find_cycles_iff_topic_scc_witness :
    edgeKindsOK gExC = true ∧
    findCycles gExC = [ValidationError.cycleDetected ["b", "c"]] ∧
    (findCycles gExC ≠ [] ↔ topicSubgraphHasNontrivialSCC gExC) ∧
    (∀ err ∈ findCycles gExC, ∃ scc ∈ sccsOf gExC, 1 < scc.length ∧
        (∀ i ∈ scc, isTopicB gExC i = true) ∧
        scc.filterMap (topicNameOf gExC) ≠ [] ∧
        err = ValidationError.cycleDetected
          (scc.filterMap (topicNameOf gExC))) := by
  have h := find_cycles_iff_topic_scc gExC (by decide)
  exact ⟨by decide, rfl, h.1, h.2⟩

end AgentScript
